import Mathlib

/-!
# Verification of google-calendar-event-fetcher

Shallow embedding of the library's core, translated from the repository source:

* `RangeSet` (src/range-set.ts): a set of disjoint numeric ranges stored as a
  flat ascending boundary list (even index = start, odd index = end).  The
  operations `hasRange`, `addRange`, `removeRange`, `inverse`, `intersection`
  and the two private binary searches `#getLowerBoundIndex` /
  `#getUpperBoundIndex` are translated function by function.
* `GoogleCalendarEventFetcher` (src/index.js / src/event-fetcher.ts):
  `fetchEvents`, the per-gap protocol `#requestEvents`, and the merge of
  returned items into the insertion-ordered `#allEvents` map.

JavaScript numbers are modelled by `JNum := WithBot (WithTop ℚ)`: the code only
compares values (no arithmetic on them), and `inverse` uses the infinity
sentinels `Number.NEGATIVE_INFINITY` / `Number.POSITIVE_INFINITY`, so a linear
order with a least and a greatest element is the faithful carrier (`NaN` is
outside the model).  The `while` loops of the source are translated with an
explicit iteration-count argument (`fuel`), initialized at each call site to a
bound that exceeds the loop's iteration count, so that every function is
structurally recursive and computable by the kernel.

Asynchronous execution is modelled sequentially: the source awaits every
request it issues, and all synchronous sections between `await` points run
atomically (single-threaded cooperative scheduling), so a run of `fetchEvents`
is a pure state transformer over a `World` carrying the fetcher state and the
log of remote calls made so far.  The injected `fetch` capability is an
`Oracle`: a function from (call index, requested window) to a response.
-/

-- Equality of `Except` results is decidable (used to state concrete runs).
deriving instance DecidableEq for Except

/-- The numeric carrier: rationals extended with the two infinity sentinels. -/
abbrev JNum : Type := WithBot (WithTop ℚ)

/-- A finite JavaScript number. -/
def fin (q : ℚ) : JNum := ((q : WithTop ℚ) : WithBot (WithTop ℚ))

/-- Number.NEGATIVE_INFINITY. -/
def negInf : JNum := (⊥ : WithBot (WithTop ℚ))

/-- Number.POSITIVE_INFINITY. -/
def posInf : JNum := ((⊤ : WithTop ℚ) : WithBot (WithTop ℚ))

namespace RangeSet

/-- Translation of the `while` loop of `RangeSet.#getLowerBoundIndex`
(src/range-set.ts).  `lo`/`hi` are the source's `lowerBound`/`upperBound`;
the source loops while `upperBound - lowerBound > 1`, takes
`Math.floor((lowerBound + upperBound) / 2)` and narrows the side on
`this.#ranges[index] > target`.  `fuel` bounds the iteration count and is
initialized at the call site to the array length, which exceeds `hi - lo`. -/
def lowerLoop (l : List JNum) (target : JNum) : Nat → Nat → Nat → Nat
  | lo, _hi, 0 => lo
  | lo, hi, fuel + 1 =>
    if 1 < hi - lo then
      let mid := (lo + hi) / 2
      if target < l.getD mid negInf then lowerLoop l target lo mid fuel
      else lowerLoop l target mid hi fuel
    else lo

/-- Translation of `RangeSet.#getLowerBoundIndex`: index of the largest value
less than or equal to `target`, or `none` if the target is smaller than the
smallest value.  (`l.getD i negInf` models `this.#ranges[i]`; all reads are in
bounds in every reachable call.) -/
def getLowerBoundIndex (l : List JNum) (target : JNum) : Option Nat :=
  if l.length = 0 ∨ target < l.getD 0 negInf then none
  else if l.getD (l.length - 1) negInf ≤ target then some (l.length - 1)
  else some (lowerLoop l target 0 (l.length - 1) l.length)

/-- Translation of the `while` loop of `RangeSet.#getUpperBoundIndex`
(src/range-set.ts); the source takes `Math.ceil((lowerBound + upperBound) / 2)`
and narrows on `this.#ranges[index] < target`. -/
def upperLoop (l : List JNum) (target : JNum) : Nat → Nat → Nat → Nat
  | _lo, hi, 0 => hi
  | lo, hi, fuel + 1 =>
    if 1 < hi - lo then
      let mid := (lo + hi + 1) / 2
      if l.getD mid negInf < target then upperLoop l target mid hi fuel
      else upperLoop l target lo mid fuel
    else hi

/-- Translation of `RangeSet.#getUpperBoundIndex`: index of the smallest value
greater than or equal to `target`, or `none` if the target is larger than the
largest value. -/
def getUpperBoundIndex (l : List JNum) (target : JNum) : Option Nat :=
  if l.length = 0 ∨ l.getD (l.length - 1) negInf < target then none
  else if target ≤ l.getD 0 negInf then some 0
  else some (upperLoop l target 0 (l.length - 1) l.length)

/-- Translation of `isValidRange` (src/range-set.ts): the structural checks
(array of length two holding numbers) are enforced by the Lean type of the
argument; the numeric content is `range[0] < range[1]`. -/
def isValidRange (r : JNum × JNum) : Bool := decide (r.1 < r.2)

/-- Body of `RangeSet.hasRange` after the validity check: floor-search the
query start; the located index must be even (an interval start) and the
interval's end must reach the query end.  `l.get? (lowerBound + 1)` models
`this.#ranges[lowerBound + 1]`, which in JavaScript compares as false with
`undefined` when out of bounds. -/
def hasRangeAux (l : List JNum) (r : JNum × JNum) : Bool :=
  match getLowerBoundIndex l r.1 with
  | none => false
  | some lowerBound =>
    if lowerBound % 2 ≠ 0 then false
    else
      match l[lowerBound + 1]? with
      | none => false
      | some v => decide (r.2 ≤ v)

/-- Translation of `RangeSet.hasRange`: throws `Invalid Range` on an invalid
range, modelled by `Except`. -/
def hasRange (l : List JNum) (r : JNum × JNum) : Except String Bool :=
  if isValidRange r then .ok (hasRangeAux l r) else .error "Invalid Range"

/-- Translation of `Array.prototype.splice(start, deleteCount, ...items)`
restricted to the uses in the source (`start ≤ length`, `deleteCount ≥ 0`). -/
def splice (l : List JNum) (start deleteCount : Nat) (items : List JNum) : List JNum :=
  l.take start ++ items ++ l.drop (start + deleteCount)

/-- Body of `RangeSet.addRange` after the validity check.  The source computes
`lastDeleteIndex - firstDeleteIndex + 1` as the (possibly 0, never negative in
a sorted state) delete count; `lastDeleteIndex + 1 - firstDeleteIndex` is the
same value under truncated subtraction. -/
def addRangeAux (l : List JNum) (r : JNum × JNum) : List JNum :=
  match getUpperBoundIndex l r.1 with
  | none => l ++ [r.1, r.2]
  | some firstDeleteIndex =>
    match getLowerBoundIndex l r.2 with
    | none => r.1 :: r.2 :: l
    | some lastDeleteIndex =>
      let newValues : List JNum :=
        (if firstDeleteIndex % 2 = 0 then [r.1] else []) ++
          (if lastDeleteIndex % 2 ≠ 0 then [r.2] else [])
      splice l firstDeleteIndex (lastDeleteIndex + 1 - firstDeleteIndex) newValues

/-- Translation of `RangeSet.addRange` with its validity check. -/
def addRange (l : List JNum) (r : JNum × JNum) : Except String (List JNum) :=
  if isValidRange r then .ok (addRangeAux l r) else .error "Invalid Range"

/-- Body of `RangeSet.removeRange` after the validity check: identical search
structure to `addRange` with the parity conditions flipped, and a no-op when
either search fails. -/
def removeRangeAux (l : List JNum) (r : JNum × JNum) : List JNum :=
  match getUpperBoundIndex l r.1 with
  | none => l
  | some firstDeleteIndex =>
    match getLowerBoundIndex l r.2 with
    | none => l
    | some lastDeleteIndex =>
      let newValues : List JNum :=
        (if firstDeleteIndex % 2 ≠ 0 then [r.1] else []) ++
          (if lastDeleteIndex % 2 = 0 then [r.2] else [])
      splice l firstDeleteIndex (lastDeleteIndex + 1 - firstDeleteIndex) newValues

/-- Translation of `RangeSet.removeRange` with its validity check. -/
def removeRange (l : List JNum) (r : JNum × JNum) : Except String (List JNum) :=
  if isValidRange r then .ok (removeRangeAux l r) else .error "Invalid Range"

/-- Translation of the `RangeSet` constructor: inserts every provided range
via `addRange` starting from the empty set. -/
def ofRanges (rs : List (JNum × JNum)) : Except String (List JNum) :=
  rs.foldlM addRange []

/-- Helper for `inverse`: the source drops the leading boundary pair when its
two values are equal (`splice(0, 2)`); in JavaScript the comparison of two
missing elements (empty array) is `undefined == undefined`, which also drops
(leaving the array empty either way). -/
def dropFirstPairIfEqual : List JNum → List JNum
  | a :: b :: rest => if a = b then rest else a :: b :: rest
  | l => l

/-- Translation of `RangeSet.inverse`: surround the boundary list with the
infinity sentinels, then drop a degenerate leading pair and a degenerate
trailing pair (the trailing drop is the leading drop on the reversed list). -/
def inverse (l : List JNum) : List JNum :=
  ((dropFirstPairIfEqual ((negInf :: l) ++ [posInf])).reverse
    |> dropFirstPairIfEqual).reverse

/-- Translation of the merge walk in `RangeSet.intersection`: advance through
the two boundary lists in ascending order (ties resolved toward the list
currently inside an interval, i.e. odd index first) and emit a boundary point
whenever the other list is inside an interval.  `fuel` bounds the iteration
count; the loop runs while both indices are in bounds and each step advances
one index, so `|A| + |B|` iterations always suffice. -/
def interLoop (rangesA rangesB : List JNum) : Nat → Nat → Nat → List JNum → List JNum
  | _, _, 0, acc => acc
  | iA, iB, fuel + 1, acc =>
    if iA < rangesA.length ∧ iB < rangesB.length then
      let a := rangesA.getD iA negInf
      let b := rangesB.getD iB negInf
      if a < b ∨ (a = b ∧ iA % 2 ≠ 0) then
        interLoop rangesA rangesB (iA + 1) iB fuel (if iB % 2 ≠ 0 then acc ++ [a] else acc)
      else
        interLoop rangesA rangesB iA (iB + 1) fuel (if iA % 2 ≠ 0 then acc ++ [b] else acc)
    else acc

/-- Translation of `RangeSet.intersection`.  The source starts each walk at
`this.#getLowerBoundIndex(other.#ranges[0]) ?? 0`; when the other list is
empty the searched target is `undefined` in the source, but then the walk's
guard `indexB < rangesB.length` fails immediately and the result is empty
independently of the start index, so `getD 0 negInf` is a faithful stand-in. -/
def intersection (lA lB : List JNum) : List JNum :=
  interLoop lA lB
    ((getLowerBoundIndex lA (lB.getD 0 negInf)).getD 0)
    ((getLowerBoundIndex lB (lA.getD 0 negInf)).getD 0)
    (lA.length + lB.length + 1) []

/-- Translation of the `RangeSet` iterator / `ranges` getter: the flat
boundary list read off two at a time (defined for the even-length lists the
invariant guarantees). -/
def toPairs : List JNum → List (JNum × JNum)
  | a :: b :: rest => (a, b) :: toPairs rest
  | _ => []

end RangeSet

/-- A Google Calendar event as far as the core logic reads it: an opaque
string identifier plus an uninterpreted payload (summary, start, end, ...). -/
structure GEvent (D : Type) where
  id : String
  data : D
deriving DecidableEq

/-- The part of a `fetch` `Response` the source reads: `ok`, `status`,
`statusText`, and the parsed body's `items`. -/
structure GResponse (D : Type) where
  ok : Bool
  status : Nat
  statusText : String
  items : List (GEvent D)
deriving DecidableEq

/-- Constructor options of `GoogleCalendarEventFetcher` that influence the
behaviour modelled here (`apiKey`/`calendarId` only flow into the request URL). -/
structure FetcherConfig (D T : Type) where
  alwaysFetchFresh : Bool
  transform : GEvent D → T

/-- Private state of a `GoogleCalendarEventFetcher` instance:
`#requestedRanges` (the committed coverage set), the size of the
`#pendingRequests` registry, and the insertion-ordered `#allEvents` map. -/
structure FetcherState (T : Type) where
  requestedRanges : List JNum
  pending : Nat
  allEvents : List (String × T)
deriving DecidableEq

/-- A fetcher instance together with the log of remote calls made through the
injected fetch capability (the mock's call record, in call order). -/
structure World (D T : Type) where
  st : FetcherState T
  calls : List (JNum × JNum)
deriving DecidableEq

/-- Errors surfaced by `fetchEvents`: the synchronous invalid-date-range throw,
and the `Failed to fetch events` error carrying the failed response as `cause`. -/
inductive FetchErr (D : Type) where
  | invalidRange
  | fetchFailed (response : GResponse D)
deriving DecidableEq

/-- The injected fetch capability: maps the index of the call (how many calls
were made before it) and the requested time window to a response. -/
abbrev Oracle (D : Type) := Nat → (JNum × JNum) → GResponse D

/-- Semantics of the built-in insertion-ordered JavaScript `Map.prototype.set`
(ECMA-262): overwrite in place if the key is present, append otherwise. -/
def mapSet {T : Type} (m : List (String × T)) (k : String) (v : T) : List (String × T) :=
  if m.any (fun p => p.1 = k) then
    m.map (fun p => if p.1 = k then (k, v) else p)
  else m ++ [(k, v)]

namespace GoogleCalendarEventFetcher

/-- Translation of `GoogleCalendarEventFetcher.#requestEvents` together with
the synchronous prefix of `#callGoogleApi`: the fetch capability is invoked
first (synchronously, before the first `await`), then the gap is optimistically
added to `#requestedRanges` and registered in `#pendingRequests`; on a
successful (`response.ok`) response every returned item is merged into
`#allEvents` keyed by its id; on failure the `catch` removes the gap from
`#requestedRanges` again and the error is re-thrown; the `finally` always
deletes the registry entry, so `pending` is back to its entry value when the
call settles.  The gap ranges passed in by `fetchEvents` always satisfy the
`addRange`/`removeRange` validity check (proved below), so the checked and
unchecked versions agree at every reachable call. -/
def requestEvents {D T : Type} (cfg : FetcherConfig D T) (oracle : Oracle D)
    (w : World D T) (range : JNum × JNum) : World D T × Option (GResponse D) :=
  let response := oracle w.calls.length range
  let calls' := w.calls ++ [range]
  let added := RangeSet.addRangeAux w.st.requestedRanges range
  if response.ok then
    ({ st := { requestedRanges := added,
               pending := w.st.pending,
               allEvents := response.items.foldl
                 (fun m e => mapSet m e.id (cfg.transform e)) w.st.allEvents },
       calls := calls' }, none)
  else
    ({ st := { requestedRanges := RangeSet.removeRangeAux added range,
               pending := w.st.pending,
               allEvents := w.st.allEvents },
       calls := calls' }, some response)

/-- The gap computation of `fetchEvents` (deduping mode):
`this.#requestedRanges.inverse().intersection(new RangeSet([range]))`.
`new RangeSet([range])` inserts the single range via `addRange` into an empty
set. -/
def computeGaps (cov : List JNum) (frm til : ℚ) : List JNum :=
  RangeSet.intersection (RangeSet.inverse cov)
    (RangeSet.addRangeAux [] (fin frm, fin til))

/-- Translation of `GoogleCalendarEventFetcher.fetchEvents`.  `from`/`to` are
`Date`s, i.e. finite timestamps, compared before anything else; in
always-fetch-fresh mode a single request for exactly the given window is made;
otherwise one request per computed gap is issued (all of them — the requests
are started synchronously in call order before any of them is awaited), and
`Promise.all` surfaces the first failure after every started request has
settled.  The resolved value is the `allEvents` getter:
`Array.from(this.#allEvents.values())`. -/
def fetchEvents {D T : Type} (cfg : FetcherConfig D T) (oracle : Oracle D)
    (w : World D T) (frm til : ℚ) : World D T × Except (FetchErr D) (List T) :=
  if til ≤ frm then (w, .error .invalidRange)
  else if cfg.alwaysFetchFresh then
    match requestEvents cfg oracle w (fin frm, fin til) with
    | (w1, none) => (w1, .ok (w1.st.allEvents.map Prod.snd))
    | (w1, some resp) => (w1, .error (.fetchFailed resp))
  else
    let missingRanges := RangeSet.toPairs (computeGaps w.st.requestedRanges frm til)
    let folded := missingRanges.foldl
      (fun (acc : World D T × Option (GResponse D)) r =>
        let res := requestEvents cfg oracle acc.1 r
        (res.1, acc.2 <|> res.2))
      (w, none)
    match folded.2 with
    | none => (folded.1, .ok (folded.1.st.allEvents.map Prod.snd))
    | some resp => (folded.1, .error (.fetchFailed resp))

end GoogleCalendarEventFetcher

/-! ## Concrete instances for executable checks -/

/-- Identity-style transform used by the executable scenarios. -/
def natTransform : GEvent Nat → Nat := GEvent.data

/-- A deduping fetcher configuration. -/
def cfgDedupe : FetcherConfig Nat Nat := ⟨false, natTransform⟩

/-- An always-fetch-fresh fetcher configuration. -/
def cfgFresh : FetcherConfig Nat Nat := ⟨true, natTransform⟩

/-- A fetch capability whose every response is `ok` with no items. -/
def okOracle : Oracle Nat := fun _ _ => ⟨true, 200, "OK", []⟩

/-- A fetch capability whose every response fails. -/
def failOracle : Oracle Nat := fun _ _ => ⟨false, 500, "Internal Server Error", []⟩

/-- A fresh fetcher instance: no coverage, no pending requests, no events, no
calls made. -/
def w0 : World Nat Nat := ⟨⟨[], 0, []⟩, []⟩

/-! ## Proof-side definitions (invariants, membership, complement components) -/

/-- A finite number (neither sentinel). -/
def IsFin (x : JNum) : Prop := x ≠ negInf ∧ x ≠ posInf

instance (x : JNum) : Decidable (IsFin x) := by unfold IsFin; infer_instance

/-- A witness strictly between two numbers (the order is dense once the
sentinels are accounted for); only meaningful when `a < b`. -/
def between (a b : JNum) : JNum :=
  if a = negInf then
    (if b = posInf then fin 0 else fin (((b.unbot' 0).untop' 0) - 1))
  else if b = posInf then fin (((a.unbot' 0).untop' 0) + 1)
  else fin ((((a.unbot' 0).untop' 0) + ((b.unbot' 0).untop' 0)) / 2)

/-- Canonical form of the flat boundary list: strictly increasing boundary
points (so intervals are nondegenerate, disjoint and never touching) and an
even number of them (every start has its end). -/
def Canonical (l : List JNum) : Prop := l.Pairwise (· < ·) ∧ Even l.length

instance (l : List JNum) : Decidable (Canonical l) := by unfold Canonical; infer_instance

/-- All boundary points finite (no sentinel stored). -/
def AllFin (l : List JNum) : Prop := ∀ x ∈ l, IsFin x

instance (l : List JNum) : Decidable (AllFin l) := by
  unfold AllFin; infer_instance

/-- Closed membership: the point lies in some stored interval (endpoints
included — the coverage algebra treats boundary points as covered). -/
def MemC (x : JNum) (l : List JNum) : Prop :=
  ∃ p ∈ RangeSet.toPairs l, p.1 ≤ x ∧ x ≤ p.2

/-- Interior membership: the point lies strictly inside some stored interval. -/
def MemI (x : JNum) (l : List JNum) : Prop :=
  ∃ p ∈ RangeSet.toPairs l, p.1 < x ∧ x < p.2

namespace RangeSet

/-- Proof-side view of the pairs of `inverse`: the complement components of a
finite boundary list, read off with a running left endpoint. -/
def compsFrom (a : JNum) : List JNum → List (JNum × JNum)
  | s :: e :: rest => (a, s) :: compsFrom e rest
  | _ => [(a, posInf)]

/-- Flatten a pair list back into a boundary list (proof-side). -/
def flatC : List (JNum × JNum) → List JNum
  | [] => []
  | p :: rest => p.1 :: p.2 :: flatC rest

/-- Clip a component list against the upper window bound `t'`: keep the
components starting below `t'`, truncating the last one at `t'` (proof-side
description of the walk's phase with the window's start already passed). -/
def tailClipsFlat (t' : JNum) : List (JNum × JNum) → List JNum
  | [] => []
  | (s, e) :: rest =>
    if t' ≤ s then []
    else if e ≤ t' then s :: e :: tailClipsFlat t' rest
    else [s, t']

/-- Drop the components ending at or below the lower window bound `f'` and pull
the start of the first surviving component up to `f'` (proof-side description
of the walk's entry phase). -/
def dropClipF (f' : JNum) : List (JNum × JNum) → List (JNum × JNum)
  | [] => []
  | (s, e) :: rest => if e ≤ f' then dropClipF f' rest else (max s f', e) :: rest

end RangeSet

/-! ## Basic facts about the numeric carrier -/

@[simp] theorem fin_lt_fin {p q : ℚ} : fin p < fin q ↔ p < q := by
  simp [fin]

@[simp] theorem fin_le_fin {p q : ℚ} : fin p ≤ fin q ↔ p ≤ q := by
  simp [fin]

@[simp] theorem fin_inj {p q : ℚ} : fin p = fin q ↔ p = q := by
  simp [fin]

@[simp] theorem negInf_lt_fin (q : ℚ) : negInf < fin q := by
  simp [fin, negInf]

@[simp] theorem fin_lt_posInf (q : ℚ) : fin q < posInf :=
  WithBot.coe_lt_coe.mpr (WithTop.coe_lt_top q)

@[simp] theorem negInf_lt_posInf : negInf < posInf := by
  simp [negInf, posInf]

@[simp] theorem negInf_le (x : JNum) : negInf ≤ x := bot_le

@[simp] theorem le_posInf (x : JNum) : x ≤ posInf := by
  rcases x with _ | x
  · exact bot_le
  · exact WithBot.coe_le_coe.mpr le_top

@[simp] theorem not_posInf_lt (x : JNum) : ¬ posInf < x :=
  not_lt_of_le (le_posInf x)

@[simp] theorem not_lt_negInf (x : JNum) : ¬ x < negInf :=
  not_lt_of_le (negInf_le x)

@[simp] theorem fin_ne_negInf (q : ℚ) : fin q ≠ negInf :=
  ne_of_gt (negInf_lt_fin q)

@[simp] theorem fin_ne_posInf (q : ℚ) : fin q ≠ posInf :=
  ne_of_lt (fin_lt_posInf q)

@[simp] theorem negInf_ne_posInf : (negInf : JNum) ≠ posInf :=
  ne_of_lt negInf_lt_posInf

/-- Every JavaScript number of the model is `-∞`, finite, or `+∞`. -/
theorem jnum_cases (x : JNum) : x = negInf ∨ (∃ q : ℚ, x = fin q) ∨ x = posInf := by
  cases x using WithBot.recBotCoe with
  | bot => exact Or.inl rfl
  | coe a =>
    cases a using WithTop.recTopCoe with
    | top => exact Or.inr (Or.inr rfl)
    | coe q => exact Or.inr (Or.inl ⟨q, rfl⟩)

theorem isFin_iff {x : JNum} : IsFin x ↔ ∃ q : ℚ, x = fin q := by
  constructor
  · intro h
    rcases jnum_cases x with h1 | h1 | h1
    · exact absurd h1 h.1
    · exact h1
    · exact absurd h1 h.2
  · rintro ⟨q, rfl⟩
    exact ⟨fin_ne_negInf q, fin_ne_posInf q⟩

@[simp] theorem unbot_untop_fin (q : ℚ) : ((fin q).unbot' 0).untop' 0 = q := rfl

theorem between_spec {a b : JNum} (h : a < b) :
    a < between a b ∧ between a b < b := by
  rcases jnum_cases a with rfl | ⟨p, rfl⟩ | rfl
  · rcases jnum_cases b with rfl | ⟨q, rfl⟩ | rfl
    · exact absurd h (lt_irrefl _)
    · refine ⟨?_, ?_⟩ <;> simp [between]
    · refine ⟨?_, ?_⟩ <;> simp [between]
  · rcases jnum_cases b with rfl | ⟨q, rfl⟩ | rfl
    · exact absurd h (not_lt_negInf _)
    · have hpq : p < q := fin_lt_fin.mp h
      refine ⟨?_, ?_⟩ <;> simp [between] <;> linarith
    · refine ⟨?_, ?_⟩ <;> simp [between]
  · exact absurd h (not_posInf_lt _)

/-! ## The canonical-form invariant -/

theorem sorted_getD_lt {l : List JNum} (hs : l.Pairwise (· < ·)) {i j : Nat}
    (hij : i < j) (hj : j < l.length) :
    l.getD i negInf < l.getD j negInf := by
  have h1 : i < l.length := lt_trans hij hj
  rw [List.getD_eq_getElem l negInf h1, List.getD_eq_getElem l negInf hj]
  exact List.pairwise_iff_getElem.mp hs i j h1 hj hij

theorem sorted_getD_le {l : List JNum} (hs : l.Pairwise (· < ·)) {i j : Nat}
    (hij : i ≤ j) (hj : j < l.length) :
    l.getD i negInf ≤ l.getD j negInf := by
  rcases eq_or_lt_of_le hij with rfl | h
  · exact le_refl _
  · exact le_of_lt (sorted_getD_lt hs h hj)

/-! ## Correctness of the binary searches -/

namespace RangeSet

theorem lowerLoop_spec (l : List JNum) (t' : JNum) :
    ∀ fuel lo hi, hi - lo ≤ fuel → lo < hi → hi < l.length →
      l.getD lo negInf ≤ t' → t' < l.getD hi negInf →
      lo ≤ lowerLoop l t' lo hi fuel ∧ lowerLoop l t' lo hi fuel + 1 ≤ hi ∧
        l.getD (lowerLoop l t' lo hi fuel) negInf ≤ t' ∧
        t' < l.getD (lowerLoop l t' lo hi fuel + 1) negInf := by
  intro fuel
  induction fuel with
  | zero => intro lo hi hf hlt _ _ _; exfalso; omega
  | succ n ih =>
    intro lo hi hf hlt hhi hlo hht
    simp only [lowerLoop]
    by_cases hg : 1 < hi - lo
    · rw [if_pos hg]
      by_cases hc : t' < l.getD ((lo + hi) / 2) negInf
      · rw [if_pos hc]
        obtain ⟨h1, h2, h3, h4⟩ :=
          ih lo ((lo + hi) / 2) (by omega) (by omega) (by omega) hlo hc
        exact ⟨h1, by omega, h3, h4⟩
      · rw [if_neg hc]
        push_neg at hc
        obtain ⟨h1, h2, h3, h4⟩ := ih ((lo + hi) / 2) hi (by omega) (by omega) hhi hc hht
        exact ⟨by omega, h2, h3, h4⟩
    · rw [if_neg hg]
      have he : hi = lo + 1 := by omega
      exact ⟨le_refl _, by omega, hlo, he ▸ hht⟩

theorem upperLoop_spec (l : List JNum) (t' : JNum) :
    ∀ fuel lo hi, hi - lo ≤ fuel → lo < hi → hi < l.length →
      l.getD lo negInf < t' → t' ≤ l.getD hi negInf →
      lo < upperLoop l t' lo hi fuel ∧ upperLoop l t' lo hi fuel ≤ hi ∧
        l.getD (upperLoop l t' lo hi fuel - 1) negInf < t' ∧
        t' ≤ l.getD (upperLoop l t' lo hi fuel) negInf := by
  intro fuel
  induction fuel with
  | zero => intro lo hi hf hlt _ _ _; exfalso; omega
  | succ n ih =>
    intro lo hi hf hlt hhi hlo hht
    simp only [upperLoop]
    by_cases hg : 1 < hi - lo
    · rw [if_pos hg]
      by_cases hc : l.getD ((lo + hi + 1) / 2) negInf < t'
      · rw [if_pos hc]
        obtain ⟨h1, h2, h3, h4⟩ := ih ((lo + hi + 1) / 2) hi (by omega) (by omega) hhi hc hht
        exact ⟨by omega, h2, h3, h4⟩
      · rw [if_neg hc]
        push_neg at hc
        obtain ⟨h1, h2, h3, h4⟩ :=
          ih lo ((lo + hi + 1) / 2) (by omega) (by omega) (by omega) hlo hc
        exact ⟨h1, by omega, h3, h4⟩
    · rw [if_neg hg]
      have he : hi = lo + 1 := by omega
      refine ⟨by omega, le_refl _, ?_, hht⟩
      have : hi - 1 = lo := by omega
      rw [this]
      exact hlo

theorem getLowerBoundIndex_none (l : List JNum) (t' : JNum) :
    getLowerBoundIndex l t' = none ↔ (l.length = 0 ∨ t' < l.getD 0 negInf) := by
  unfold getLowerBoundIndex
  by_cases h : l.length = 0 ∨ t' < l.getD 0 negInf
  · rw [if_pos h]
    exact iff_of_true rfl h
  · rw [if_neg h]
    constructor
    · intro hc
      split at hc <;> cases hc
    · intro hc
      exact absurd hc h

theorem getLowerBoundIndex_spec (l : List JNum) (t' : JNum) (i : Nat)
    (h : getLowerBoundIndex l t' = some i) :
    i < l.length ∧ l.getD i negInf ≤ t' ∧
      (i + 1 = l.length ∨ t' < l.getD (i + 1) negInf) := by
  unfold getLowerBoundIndex at h
  by_cases h0 : l.length = 0 ∨ t' < l.getD 0 negInf
  · rw [if_pos h0] at h; cases h
  · rw [if_neg h0] at h
    push_neg at h0
    obtain ⟨hne, h0le⟩ := h0
    by_cases h1 : l.getD (l.length - 1) negInf ≤ t'
    · rw [if_pos h1] at h
      injection h with h
      subst h
      exact ⟨by omega, h1, Or.inl (by omega)⟩
    · rw [if_neg h1] at h
      injection h with h
      subst h
      push_neg at h1
      have hz : l.length - 1 ≠ 0 := by
        intro hz
        rw [hz] at h1
        exact absurd h0le (not_le_of_lt h1)
      obtain ⟨a1, a2, a3, a4⟩ :=
        lowerLoop_spec l t' l.length 0 (l.length - 1) (by omega) (by omega) (by omega) h0le h1
      exact ⟨by omega, a3, Or.inr a4⟩

theorem getLowerBoundIndex_char {l : List JNum} (hs : l.Pairwise (· < ·)) {t' : JNum}
    {i : Nat} (h : getLowerBoundIndex l t' = some i) :
    ∀ j, j < l.length → (l.getD j negInf ≤ t' ↔ j ≤ i) := by
  obtain ⟨hi, hle, hnext⟩ := getLowerBoundIndex_spec l t' i h
  intro j hj
  constructor
  · intro hjle
    by_contra hc
    push_neg at hc
    rcases hnext with he | hlt
    · omega
    · have hmono : l.getD (i + 1) negInf ≤ l.getD j negInf := sorted_getD_le hs (by omega) hj
      exact absurd hjle (not_le_of_lt (lt_of_lt_of_le hlt hmono))
  · intro hji
    exact le_trans (sorted_getD_le hs hji hi) hle

theorem getLowerBoundIndex_isSome {l : List JNum} {t' : JNum} (hne : l.length ≠ 0)
    (h0 : l.getD 0 negInf ≤ t') :
    ∃ i, getLowerBoundIndex l t' = some i := by
  unfold getLowerBoundIndex
  rw [if_neg (by push_neg; exact ⟨hne, h0⟩)]
  split <;> exact ⟨_, rfl⟩

theorem getLowerBoundIndex_eq {l : List JNum} (hs : l.Pairwise (· < ·)) {t' : JNum}
    {i : Nat} (hi : i < l.length) (hle : l.getD i negInf ≤ t')
    (hnext : i + 1 = l.length ∨ t' < l.getD (i + 1) negInf) :
    getLowerBoundIndex l t' = some i := by
  obtain ⟨j, hj⟩ := getLowerBoundIndex_isSome (by omega)
    (le_trans (sorted_getD_le hs (Nat.zero_le i) hi) hle)
  have hchar := getLowerBoundIndex_char hs hj
  have hij : i ≤ j := (hchar i hi).mp hle
  obtain ⟨hjlen, _, _⟩ := getLowerBoundIndex_spec l t' j hj
  have hji : j ≤ i := by
    rcases hnext with he | hlt
    · omega
    · by_contra hc
      push_neg at hc
      have : l.getD (i + 1) negInf ≤ t' := (hchar (i + 1) (by omega)).mpr (by omega)
      exact absurd this (not_le_of_lt hlt)
  have : i = j := le_antisymm hij hji
  rw [hj, this]

theorem getUpperBoundIndex_none (l : List JNum) (t' : JNum) :
    getUpperBoundIndex l t' = none ↔
      (l.length = 0 ∨ l.getD (l.length - 1) negInf < t') := by
  unfold getUpperBoundIndex
  by_cases h : l.length = 0 ∨ l.getD (l.length - 1) negInf < t'
  · rw [if_pos h]
    exact iff_of_true rfl h
  · rw [if_neg h]
    constructor
    · intro hc
      split at hc <;> cases hc
    · intro hc
      exact absurd hc h

theorem getUpperBoundIndex_spec (l : List JNum) (t' : JNum) (i : Nat)
    (h : getUpperBoundIndex l t' = some i) :
    i < l.length ∧ t' ≤ l.getD i negInf ∧
      (i = 0 ∨ l.getD (i - 1) negInf < t') := by
  unfold getUpperBoundIndex at h
  by_cases h0 : l.length = 0 ∨ l.getD (l.length - 1) negInf < t'
  · rw [if_pos h0] at h; cases h
  · rw [if_neg h0] at h
    push_neg at h0
    obtain ⟨hne, hlast⟩ := h0
    by_cases h1 : t' ≤ l.getD 0 negInf
    · rw [if_pos h1] at h
      injection h with h
      subst h
      exact ⟨by omega, h1, Or.inl rfl⟩
    · rw [if_neg h1] at h
      injection h with h
      subst h
      push_neg at h1
      have hz : l.length - 1 ≠ 0 := by
        intro hz
        rw [hz] at hlast
        exact absurd h1 (not_lt_of_le hlast)
      obtain ⟨a1, a2, a3, a4⟩ :=
        upperLoop_spec l t' l.length 0 (l.length - 1) (by omega) (by omega) (by omega) h1 hlast
      exact ⟨by omega, a4, Or.inr a3⟩

theorem getUpperBoundIndex_char {l : List JNum} (hs : l.Pairwise (· < ·)) {t' : JNum}
    {i : Nat} (h : getUpperBoundIndex l t' = some i) :
    ∀ j, j < l.length → (t' ≤ l.getD j negInf ↔ i ≤ j) := by
  obtain ⟨hi, hle, hprev⟩ := getUpperBoundIndex_spec l t' i h
  intro j hj
  constructor
  · intro hjle
    by_contra hc
    push_neg at hc
    rcases hprev with he | hlt
    · omega
    · have hmono : l.getD j negInf ≤ l.getD (i - 1) negInf := sorted_getD_le hs (by omega) (by omega)
      exact absurd hjle (not_le_of_lt (lt_of_le_of_lt hmono hlt))
  · intro hji
    exact le_trans hle (sorted_getD_le hs hji hj)

theorem getUpperBoundIndex_isSome {l : List JNum} {t' : JNum} (hne : l.length ≠ 0)
    (h0 : t' ≤ l.getD (l.length - 1) negInf) :
    ∃ i, getUpperBoundIndex l t' = some i := by
  unfold getUpperBoundIndex
  rw [if_neg (by push_neg; exact ⟨hne, h0⟩)]
  split <;> exact ⟨_, rfl⟩

theorem getUpperBoundIndex_eq {l : List JNum} (hs : l.Pairwise (· < ·)) {t' : JNum}
    {i : Nat} (hi : i < l.length) (hle : t' ≤ l.getD i negInf)
    (hprev : i = 0 ∨ l.getD (i - 1) negInf < t') :
    getUpperBoundIndex l t' = some i := by
  obtain ⟨j, hj⟩ := getUpperBoundIndex_isSome (by omega)
    (le_trans hle (sorted_getD_le hs (by omega) (by omega)))
  have hchar := getUpperBoundIndex_char hs hj
  have hji : j ≤ i := (hchar i hi).mp hle
  obtain ⟨hjlen, _, _⟩ := getUpperBoundIndex_spec l t' j hj
  have hij : i ≤ j := by
    rcases hprev with he | hlt
    · omega
    · by_contra hc
      push_neg at hc
      have : t' ≤ l.getD (i - 1) negInf := (hchar (i - 1) (by omega)).mpr (by omega)
      exact absurd this (not_le_of_lt hlt)
  have : i = j := le_antisymm hij hji
  rw [hj, this]

end RangeSet

/-! ## Preservation of the canonical form (the strict-increase invariant) -/

namespace RangeSet

theorem mem_take_lt_bound {l : List JNum} (hs : l.Pairwise (· < ·)) {fi : Nat} {a : JNum}
    (hfi : fi ≤ l.length) (hbound : fi = 0 ∨ l.getD (fi - 1) negInf < a) :
    ∀ x ∈ l.take fi, x < a := by
  intro x hx
  obtain ⟨i, hi, hx⟩ := List.mem_iff_getElem.mp hx
  rw [List.length_take] at hi
  have hil : i < l.length := by omega
  have hxi : x = l.getD i negInf := by
    rw [List.getD_eq_getElem l negInf hil, ← hx, List.getElem_take]
  rcases hbound with h0 | hlt
  · omega
  · subst hxi
    exact lt_of_le_of_lt (sorted_getD_le hs (by omega) (by omega)) hlt

theorem mem_drop_gt_bound {l : List JNum} (hs : l.Pairwise (· < ·)) {li : Nat} {b : JNum}
    (hnext : li + 1 = l.length ∨ b < l.getD (li + 1) negInf) :
    ∀ y ∈ l.drop (li + 1), b < y := by
  intro y hy
  obtain ⟨i, hi, hy⟩ := List.mem_iff_getElem.mp hy
  rw [List.length_drop] at hi
  have hil : li + 1 + i < l.length := by omega
  have hyi : y = l.getD (li + 1 + i) negInf := by
    rw [List.getD_eq_getElem l negInf hil, ← hy, List.getElem_drop]
  rcases hnext with h0 | hlt
  · omega
  · subst hyi
    exact lt_of_lt_of_le hlt (sorted_getD_le hs (by omega) hil)

theorem addRangeAux_canonical {l : List JNum} (hc : Canonical l) {a b : JNum}
    (hab : a < b) : Canonical (addRangeAux l (a, b)) := by
  obtain ⟨hs, hev⟩ := hc
  rw [Nat.even_iff] at hev
  simp only [addRangeAux]
  rcases hub : getUpperBoundIndex l a with _ | fi
  · -- push branch: everything in `l` is below `a`
    rw [getUpperBoundIndex_none] at hub
    constructor
    · rw [List.pairwise_append]
      refine ⟨hs, by simp [hab], ?_⟩
      intro x hx y hy
      have hxa : x < a := by
        obtain ⟨i, hi, rfl⟩ := List.mem_iff_getElem.mp hx
        rcases hub with h0 | hlast
        · omega
        · rw [← List.getD_eq_getElem l negInf hi]
          exact lt_of_le_of_lt (sorted_getD_le hs (by omega) (by omega)) hlast
      have hy2 : y = a ∨ y = b := by simpa using hy
      rcases hy2 with rfl | rfl
      · exact hxa
      · exact lt_trans hxa hab
    · rw [Nat.even_iff]
      simp [Nat.add_mod, hev]
  · rcases hlb : getLowerBoundIndex l b with _ | li
    · -- unshift branch: everything in `l` is above `b`
      rw [getLowerBoundIndex_none] at hlb
      obtain ⟨hfi, _, _⟩ := getUpperBoundIndex_spec l a fi hub
      have hbl : b < l.getD 0 negInf := by
        rcases hlb with h0 | h
        · omega
        · exact h
      constructor
      · rw [List.pairwise_cons]
        refine ⟨?_, ?_⟩
        · intro y hy
          rcases List.mem_cons.mp hy with rfl | hy
          · exact hab
          · obtain ⟨i, hi, rfl⟩ := List.mem_iff_getElem.mp hy
            rw [← List.getD_eq_getElem l negInf hi]
            exact lt_trans hab (lt_of_lt_of_le hbl (sorted_getD_le hs (by omega) hi))
        · rw [List.pairwise_cons]
          refine ⟨?_, hs⟩
          intro y hy
          obtain ⟨i, hi, rfl⟩ := List.mem_iff_getElem.mp hy
          rw [← List.getD_eq_getElem l negInf hi]
          exact lt_of_lt_of_le hbl (sorted_getD_le hs (by omega) hi)
      · rw [Nat.even_iff]
        simp [Nat.add_mod, hev]
    · -- splice branch
      obtain ⟨hfi, hfa, hfprev⟩ := getUpperBoundIndex_spec l a fi hub
      obtain ⟨hli, hlb', hlnext⟩ := getLowerBoundIndex_spec l b li hlb
      have hfil : fi ≤ li + 1 := by
        rcases hfprev with h0 | hlt
        · omega
        · have : l.getD (fi - 1) negInf ≤ b := le_of_lt (lt_trans hlt hab)
          have := (getLowerBoundIndex_char hs hlb (fi - 1) (by omega)).mp this
          omega
      have htake : ∀ x ∈ l.take fi, x < a := mem_take_lt_bound hs (by omega) hfprev
      have hdrop : ∀ y ∈ l.drop (li + 1), b < y := mem_drop_gt_bound hs hlnext
      dsimp only
      set nv : List JNum :=
        (if fi % 2 = 0 then [a] else []) ++ (if li % 2 ≠ 0 then [b] else []) with hnv
      have hnvmem : ∀ z ∈ nv, z = a ∨ z = b := by
        intro z hz
        rw [hnv] at hz
        rcases List.mem_append.mp hz with h | h <;> split at h <;> simp at h <;> simp [h]
      have hsplice : splice l fi (li + 1 - fi) nv =
          l.take fi ++ (nv ++ l.drop (li + 1)) := by
        unfold splice
        rw [List.append_assoc]
        have h3 : fi + (li + 1 - fi) = li + 1 := by omega
        rw [h3]
      rw [hsplice]
      constructor
      · rw [List.pairwise_append, List.pairwise_append]
        refine ⟨hs.sublist (List.take_sublist fi l), ⟨?_, hs.sublist (List.drop_sublist (li + 1) l), ?_⟩, ?_⟩
        · -- nv itself is sorted
          rw [hnv]
          split <;> split <;> simp [hab]
        · -- nv < drop
          intro x hx y hy
          have hby := hdrop y hy
          rcases hnvmem x hx with rfl | rfl
          · exact lt_trans hab hby
          · exact hby
        · -- take < nv and take < drop
          intro x hx y hy
          have hxa := htake x hx
          rcases List.mem_append.mp hy with h | h
          · rcases hnvmem y h with rfl | rfl
            · exact hxa
            · exact lt_trans hxa hab
          · exact lt_trans hxa (lt_trans hab (hdrop y h))
      · rw [Nat.even_iff]
        have hlnv : nv.length = (if fi % 2 = 0 then 1 else 0) + (if li % 2 ≠ 0 then 1 else 0) := by
          rw [hnv]
          split <;> split <;> simp
        simp only [List.length_append, List.length_take, List.length_drop, hlnv]
        have h2 : min fi l.length = fi := by omega
        rw [h2]
        rcases Nat.mod_two_eq_zero_or_one fi with hf | hf <;>
          rcases Nat.mod_two_eq_zero_or_one li with hl | hl <;>
            simp only [hf, hl] <;> simp <;> omega

theorem removeRangeAux_canonical {l : List JNum} (hc : Canonical l) {a b : JNum}
    (hab : a < b) : Canonical (removeRangeAux l (a, b)) := by
  obtain ⟨hs, hev⟩ := hc
  rw [Nat.even_iff] at hev
  simp only [removeRangeAux]
  rcases hub : getUpperBoundIndex l a with _ | fi
  · exact ⟨hs, by rw [Nat.even_iff]; exact hev⟩
  · rcases hlb : getLowerBoundIndex l b with _ | li
    · exact ⟨hs, by rw [Nat.even_iff]; exact hev⟩
    · obtain ⟨hfi, hfa, hfprev⟩ := getUpperBoundIndex_spec l a fi hub
      obtain ⟨hli, hlb', hlnext⟩ := getLowerBoundIndex_spec l b li hlb
      have hfil : fi ≤ li + 1 := by
        rcases hfprev with h0 | hlt
        · omega
        · have : l.getD (fi - 1) negInf ≤ b := le_of_lt (lt_trans hlt hab)
          have := (getLowerBoundIndex_char hs hlb (fi - 1) (by omega)).mp this
          omega
      have htake : ∀ x ∈ l.take fi, x < a := mem_take_lt_bound hs (by omega) hfprev
      have hdrop : ∀ y ∈ l.drop (li + 1), b < y := mem_drop_gt_bound hs hlnext
      dsimp only
      set nv : List JNum :=
        (if fi % 2 ≠ 0 then [a] else []) ++ (if li % 2 = 0 then [b] else []) with hnv
      have hnvmem : ∀ z ∈ nv, z = a ∨ z = b := by
        intro z hz
        rw [hnv] at hz
        rcases List.mem_append.mp hz with h | h <;> split at h <;> simp at h <;> simp [h]
      have hsplice : splice l fi (li + 1 - fi) nv =
          l.take fi ++ (nv ++ l.drop (li + 1)) := by
        unfold splice
        rw [List.append_assoc]
        have h3 : fi + (li + 1 - fi) = li + 1 := by omega
        rw [h3]
      rw [hsplice]
      constructor
      · rw [List.pairwise_append, List.pairwise_append]
        refine ⟨hs.sublist (List.take_sublist fi l), ⟨?_, hs.sublist (List.drop_sublist (li + 1) l), ?_⟩, ?_⟩
        · rw [hnv]
          split <;> split <;> simp [hab]
        · intro x hx y hy
          have hby := hdrop y hy
          rcases hnvmem x hx with rfl | rfl
          · exact lt_trans hab hby
          · exact hby
        · intro x hx y hy
          have hxa := htake x hx
          rcases List.mem_append.mp hy with h | h
          · rcases hnvmem y h with rfl | rfl
            · exact hxa
            · exact lt_trans hxa hab
          · exact lt_trans hxa (lt_trans hab (hdrop y h))
      · rw [Nat.even_iff]
        have hlnv : nv.length = (if fi % 2 ≠ 0 then 1 else 0) + (if li % 2 = 0 then 1 else 0) := by
          rw [hnv]
          split <;> split <;> simp
        simp only [List.length_append, List.length_take, List.length_drop, hlnv]
        have h2 : min fi l.length = fi := by omega
        rw [h2]
        rcases Nat.mod_two_eq_zero_or_one fi with hf | hf <;>
          rcases Nat.mod_two_eq_zero_or_one li with hl | hl <;>
            simp only [hf, hl] <;> simp <;> omega

end RangeSet

/-! ## The pairs view of a canonical boundary list -/

namespace RangeSet

theorem toPairs_nil_of_short (l : List JNum)
    (h : ∀ (a b : JNum) (rest : List JNum), l = a :: b :: rest → False) :
    toPairs l = [] := by
  match l with
  | [] => rfl
  | [x] => rfl
  | a :: b :: rest => exact absurd rfl (h a b rest)

theorem length_short (l : List JNum)
    (h : ∀ (a b : JNum) (rest : List JNum), l = a :: b :: rest → False) :
    l.length ≤ 1 := by
  match l with
  | [] => simp
  | [x] => simp
  | a :: b :: rest => exact absurd rfl (h a b rest)

theorem mem_toPairs_iff {p : JNum × JNum} : ∀ {l : List JNum},
    p ∈ toPairs l ↔ ∃ j : Nat, 2 * j + 1 < l.length ∧
      p.1 = l.getD (2 * j) negInf ∧ p.2 = l.getD (2 * j + 1) negInf := by
  intro l
  induction l using toPairs.induct with
  | case2 l hshort =>
    rw [toPairs_nil_of_short l hshort]
    have := length_short l hshort
    constructor
    · intro h
      cases h
    · rintro ⟨j, hj, _⟩
      omega
  | case1 a b rest ih =>
    simp only [toPairs, List.mem_cons]
    constructor
    · intro hp
      rcases hp with rfl | hp
      · exact ⟨0, by simp, by simp, by simp⟩
      · obtain ⟨j, hj, h1, h2⟩ := ih.mp hp
        refine ⟨j + 1, by simp; omega, ?_, ?_⟩
        · have e1 : 2 * (j + 1) = 2 * j + 1 + 1 := by ring
          rw [e1, List.getD_cons_succ, List.getD_cons_succ]
          exact h1
        · have e1 : 2 * (j + 1) + 1 = 2 * j + 1 + 1 + 1 := by ring
          rw [e1, List.getD_cons_succ, List.getD_cons_succ]
          exact h2
    · rintro ⟨j, hj, h1, h2⟩
      match j with
      | 0 =>
        simp only [Nat.mul_zero, List.getD_cons_zero, Nat.zero_add,
          List.getD_cons_succ] at h1 h2
        left
        rw [Prod.ext_iff]
        exact ⟨h1, by simpa using h2⟩
      | k + 1 =>
        right
        refine ih.mpr ⟨k, ?_, ?_, ?_⟩
        · simp at hj
          omega
        · have e1 : 2 * (k + 1) = 2 * k + 1 + 1 := by ring
          rw [e1, List.getD_cons_succ, List.getD_cons_succ] at h1
          exact h1
        · have e1 : 2 * (k + 1) + 1 = 2 * k + 1 + 1 + 1 := by ring
          rw [e1, List.getD_cons_succ, List.getD_cons_succ] at h2
          exact h2

/-- Every stored pair is nondegenerate in a canonical state. -/
theorem toPairs_lt {l : List JNum} (hs : l.Pairwise (· < ·)) {p : JNum × JNum}
    (hp : p ∈ toPairs l) : p.1 < p.2 := by
  obtain ⟨j, hj, h1, h2⟩ := mem_toPairs_iff.mp hp
  rw [h1, h2]
  exact sorted_getD_lt hs (by omega) hj

theorem hasRangeAux_none {l : List JNum} {a b : JNum}
    (h : getLowerBoundIndex l a = none) : hasRangeAux l (a, b) = false := by
  simp [hasRangeAux, h]

theorem hasRangeAux_some {l : List JNum} {a b : JNum} {i : Nat}
    (h : getLowerBoundIndex l a = some i) :
    hasRangeAux l (a, b) = if i % 2 ≠ 0 then false
      else match l[i + 1]? with
        | none => false
        | some v => decide (b ≤ v) := by
  simp only [hasRangeAux, h]

/-- Correctness of `hasRange` on a canonical state: the query is found exactly
when a single stored interval contains it. -/
theorem hasRangeAux_iff {l : List JNum} (hc : Canonical l) {a b : JNum} (hab : a < b) :
    hasRangeAux l (a, b) = true ↔ ∃ p ∈ toPairs l, p.1 ≤ a ∧ b ≤ p.2 := by
  obtain ⟨hs, hev⟩ := hc
  rw [Nat.even_iff] at hev
  rcases hlb : getLowerBoundIndex l a with _ | i
  · rw [hasRangeAux_none hlb]
    rw [getLowerBoundIndex_none] at hlb
    constructor
    · intro h
      cases h
    · rintro ⟨p, hp, hpa, hpb⟩
      obtain ⟨j, hj, h1, h2⟩ := mem_toPairs_iff.mp hp
      rcases hlb with h0 | h0
      · omega
      · have : l.getD 0 negInf ≤ a :=
          le_trans (sorted_getD_le hs (by omega) (by omega)) (h1 ▸ hpa)
        exact absurd this (not_le_of_lt h0)
  · rw [hasRangeAux_some hlb]
    obtain ⟨hi, hile, hinext⟩ := getLowerBoundIndex_spec l a i hlb
    have hchar := getLowerBoundIndex_char hs hlb
    by_cases hpar : i % 2 ≠ 0
    · rw [if_pos hpar]
      constructor
      · intro h
        cases h
      · rintro ⟨p, hp, hpa, hpb⟩
        obtain ⟨j, hj, h1, h2⟩ := mem_toPairs_iff.mp hp
        have hji : 2 * j ≤ i := (hchar (2 * j) (by omega)).mp (h1 ▸ hpa)
        have hbj : ¬ l.getD (2 * j + 1) negInf ≤ a := by
          intro hle
          exact absurd (le_trans (h2 ▸ hpb) hle) (not_le_of_lt hab)
        have : ¬ 2 * j + 1 ≤ i := fun hc => hbj ((hchar (2 * j + 1) (by omega)).mpr hc)
        omega
    · rw [if_neg hpar]
      push_neg at hpar
      have hi1 : i + 1 < l.length := by omega
      rw [List.getElem?_eq_getElem hi1]
      simp only [decide_eq_true_eq]
      constructor
      · intro hble
        refine ⟨(l.getD i negInf, l.getD (i + 1) negInf), ?_, hile, ?_⟩
        · have e1 : 2 * (i / 2) = i := by omega
          have e2 : 2 * (i / 2) + 1 = i + 1 := by omega
          exact mem_toPairs_iff.mpr ⟨i / 2, by omega, by rw [e1], by rw [e2]⟩
        · rw [← List.getD_eq_getElem l negInf hi1] at hble
          exact hble
      · rintro ⟨p, hp, hpa, hpb⟩
        obtain ⟨j, hj, h1, h2⟩ := mem_toPairs_iff.mp hp
        have hji : 2 * j ≤ i := (hchar (2 * j) (by omega)).mp (h1 ▸ hpa)
        have hbj : ¬ l.getD (2 * j + 1) negInf ≤ a := by
          intro hle
          exact absurd (le_trans (h2 ▸ hpb) hle) (not_le_of_lt hab)
        have hij : ¬ 2 * j + 1 ≤ i := fun hc => hbj ((hchar (2 * j + 1) (by omega)).mpr hc)
        have he : i = 2 * j := by omega
        subst he
        rw [List.getD_eq_getElem l negInf hi1] at h2
        rw [← h2]
        exact hpb

end RangeSet

/-! ## List decomposition helpers -/

namespace RangeSet

theorem getD_take_eq {l : List JNum} {fi j : Nat} (hj : j < fi) (h2 : j < l.length) :
    (l.take fi).getD j negInf = l.getD j negInf := by
  have hlt : j < (l.take fi).length := by rw [List.length_take]; omega
  rw [List.getD_eq_getElem _ _ hlt, List.getD_eq_getElem _ _ h2]
  exact List.getElem_take _

theorem getD_drop_eq {l : List JNum} {k j : Nat} (h : k + j < l.length) :
    (l.drop k).getD j negInf = l.getD (k + j) negInf := by
  have hlt : j < (l.drop k).length := by rw [List.length_drop]; omega
  rw [List.getD_eq_getElem _ _ hlt, List.getD_eq_getElem _ _ h]
  exact List.getElem_drop _

theorem take_getD_drop {l : List JNum} {fi : Nat} (h : fi < l.length) :
    l.take fi ++ l.getD fi negInf :: l.drop (fi + 1) = l := by
  conv_rhs => rw [← List.take_append_drop fi l]
  congr 1
  rw [List.drop_eq_getElem_cons h, List.getD_eq_getElem _ _ h]

theorem take_two_getD_drop {l : List JNum} {fi : Nat} (h : fi + 1 < l.length) :
    l.take fi ++ l.getD fi negInf :: l.getD (fi + 1) negInf :: l.drop (fi + 2) = l := by
  conv_rhs => rw [← List.take_append_drop fi l]
  congr 1
  rw [List.drop_eq_getElem_cons (by omega : fi < l.length), List.getD_eq_getElem _ _ (by omega)]
  congr 1
  rw [List.drop_eq_getElem_cons h, List.getD_eq_getElem _ _ h]

end RangeSet

namespace RangeSet

theorem length_patch {l mid : List JNum} {fi k : Nat} (hfil : fi ≤ l.length)
    (hk : k ≤ l.length) :
    (l.take fi ++ mid ++ l.drop k).length = fi + mid.length + (l.length - k) := by
  simp only [List.length_append, List.length_take, List.length_drop]
  omega

theorem getD_patch_lt {l mid : List JNum} {fi k j : Nat} (hfil : fi ≤ l.length)
    (hj : j < fi) :
    (l.take fi ++ mid ++ l.drop k).getD j negInf = l.getD j negInf := by
  rw [List.append_assoc,
    List.getD_append (l.take fi) _ negInf j (by rw [List.length_take]; omega)]
  exact getD_take_eq hj (by omega)

theorem getD_patch_mid {l mid : List JNum} {fi k j : Nat} (hfil : fi ≤ l.length)
    (hj1 : fi ≤ j) (hj2 : j < fi + mid.length) :
    (l.take fi ++ mid ++ l.drop k).getD j negInf = mid.getD (j - fi) negInf := by
  have htl : (l.take fi).length = fi := by rw [List.length_take]; omega
  rw [List.append_assoc,
    List.getD_append_right (l.take fi) _ negInf j (by omega), htl,
    List.getD_append mid _ negInf (j - fi) (by omega)]

theorem getD_patch_ge {l mid : List JNum} {fi k j : Nat} (hfil : fi ≤ l.length)
    (hj1 : fi + mid.length ≤ j) (hj2 : k + (j - fi - mid.length) < l.length) :
    (l.take fi ++ mid ++ l.drop k).getD j negInf =
      l.getD (k + (j - fi - mid.length)) negInf := by
  have htl : (l.take fi).length = fi := by rw [List.length_take]; omega
  rw [List.append_assoc,
    List.getD_append_right (l.take fi) _ negInf j (by omega), htl,
    List.getD_append_right mid _ negInf (j - fi) (by omega)]
  have e : j - fi - mid.length = j - fi - mid.length := rfl
  rw [getD_drop_eq (by omega)]

theorem take_patch {l mid : List JNum} {fi k : Nat} (hfil : fi ≤ l.length) :
    (l.take fi ++ mid ++ l.drop k).take fi = l.take fi := by
  rw [List.append_assoc,
    List.take_append_of_le_length (by rw [List.length_take]; omega),
    List.take_take, Nat.min_self]

theorem drop_patch {l mid : List JNum} {fi k j : Nat} (hfil : fi ≤ l.length)
    (hj : j = fi + mid.length) :
    (l.take fi ++ mid ++ l.drop k).drop j = l.drop k := by
  subst hj
  have htl : (l.take fi ++ mid).length = fi + mid.length := by
    simp only [List.length_append, List.length_take]
    omega
  rw [← htl]
  exact List.drop_left _ _

theorem addRangeAux_push {l : List JNum} {a b : JNum}
    (hub : getUpperBoundIndex l a = none) : addRangeAux l (a, b) = l ++ [a, b] := by
  simp only [addRangeAux, hub]

theorem addRangeAux_unshift {l : List JNum} {a b : JNum} {fi : Nat}
    (hub : getUpperBoundIndex l a = some fi) (hlb : getLowerBoundIndex l b = none) :
    addRangeAux l (a, b) = a :: b :: l := by
  simp only [addRangeAux, hub, hlb]

theorem addRangeAux_eq_splice {l : List JNum} {a b : JNum} {fi li : Nat}
    (hub : getUpperBoundIndex l a = some fi) (hlb : getLowerBoundIndex l b = some li) :
    addRangeAux l (a, b) = splice l fi (li + 1 - fi)
      ((if fi % 2 = 0 then [a] else []) ++ (if li % 2 ≠ 0 then [b] else [])) := by
  simp only [addRangeAux, hub, hlb]

theorem removeRangeAux_noop_left {l : List JNum} {a b : JNum}
    (hub : getUpperBoundIndex l a = none) : removeRangeAux l (a, b) = l := by
  simp only [removeRangeAux, hub]

theorem removeRangeAux_noop_right {l : List JNum} {a b : JNum} {fi : Nat}
    (hub : getUpperBoundIndex l a = some fi) (hlb : getLowerBoundIndex l b = none) :
    removeRangeAux l (a, b) = l := by
  simp only [removeRangeAux, hub, hlb]

theorem removeRangeAux_eq_splice {l : List JNum} {a b : JNum} {fi li : Nat}
    (hub : getUpperBoundIndex l a = some fi) (hlb : getLowerBoundIndex l b = some li) :
    removeRangeAux l (a, b) = splice l fi (li + 1 - fi)
      ((if fi % 2 ≠ 0 then [a] else []) ++ (if li % 2 = 0 then [b] else [])) := by
  simp only [removeRangeAux, hub, hlb]

end RangeSet

namespace RangeSet

/-- When a valid range is interior-disjoint from every stored interval
(touching at a boundary point is allowed), `removeRange` exactly undoes
`addRange` on a canonical state. -/
theorem addRemove_id {l : List JNum} (hc : Canonical l) {a b : JNum} (hab : a < b)
    (hd : ∀ p ∈ toPairs l, p.2 ≤ a ∨ b ≤ p.1) :
    removeRangeAux (addRangeAux l (a, b)) (a, b) = l := by
  obtain ⟨hs, hevE⟩ := hc
  have hev : l.length % 2 = 0 := Nat.even_iff.mp hevE
  have hcadd : Canonical (addRangeAux l (a, b)) := addRangeAux_canonical ⟨hs, hevE⟩ hab
  have hpairE : ∀ j, j < l.length → j % 2 = 0 →
      (l.getD (j + 1) negInf ≤ a ∨ b ≤ l.getD j negInf) := by
    intro j hj hp
    have e1 : 2 * (j / 2) = j := by omega
    have e2 : 2 * (j / 2) + 1 = j + 1 := by omega
    have hmem : (l.getD j negInf, l.getD (j + 1) negInf) ∈ toPairs l :=
      mem_toPairs_iff.mpr ⟨j / 2, by omega, by rw [e1], by rw [e2]⟩
    exact hd _ hmem
  have hpairO : ∀ j, j < l.length → j % 2 = 1 →
      (l.getD j negInf ≤ a ∨ b ≤ l.getD (j - 1) negInf) := by
    intro j hj hp
    have e1 : 2 * (j / 2) = j - 1 := by omega
    have e2 : 2 * (j / 2) + 1 = j := by omega
    have hmem : (l.getD (j - 1) negInf, l.getD j negInf) ∈ toPairs l :=
      mem_toPairs_iff.mpr ⟨j / 2, by omega, by rw [e1], by rw [e2]⟩
    exact hd _ hmem
  rcases hub : getUpperBoundIndex l a with _ | fi
  · -- everything stored is below the query: push, then delete the new tail pair
    have hadd := addRangeAux_push (b := b) hub
    rw [hadd] at hcadd ⊢
    rw [getUpperBoundIndex_none] at hub
    have hgA : (l ++ [a, b]).getD l.length negInf = a := by
      rw [List.getD_append_right l [a, b] negInf l.length (le_refl _), Nat.sub_self]
      rfl
    have hgB : (l ++ [a, b]).getD (l.length + 1) negInf = b := by
      rw [List.getD_append_right l [a, b] negInf (l.length + 1) (by omega)]
      have e : l.length + 1 - l.length = 1 := by omega
      rw [e]
      rfl
    have hub2 : getUpperBoundIndex (l ++ [a, b]) a = some l.length := by
      refine getUpperBoundIndex_eq hcadd.1 (by simp) (le_of_eq hgA.symm) ?_
      by_cases hl0 : l.length = 0
      · left; omega
      · right
        have h0 : l.getD (l.length - 1) negInf < a := by
          rcases hub with h0 | h0
          · omega
          · exact h0
        rw [List.getD_append l [a, b] negInf (l.length - 1) (by omega)]
        exact h0
    have hlb2 : getLowerBoundIndex (l ++ [a, b]) b = some (l.length + 1) := by
      refine getLowerBoundIndex_eq hcadd.1 (by simp) (le_of_eq hgB) ?_
      left
      simp
    rw [removeRangeAux_eq_splice hub2 hlb2, if_neg (by omega), if_neg (by omega)]
    unfold splice
    have e : l.length + (l.length + 1 + 1 - l.length) = l.length + 2 := by omega
    rw [e, List.take_left l [a, b],
      List.drop_eq_nil_of_le (by simp : (l ++ [a, b]).length ≤ l.length + 2)]
    simp
  · rcases hlb : getLowerBoundIndex l b with _ | li
    · -- everything stored is above the query: unshift, then delete the new head pair
      have hadd := addRangeAux_unshift hub hlb
      rw [hadd] at hcadd ⊢
      obtain ⟨hfi, _, _⟩ := getUpperBoundIndex_spec l a fi hub
      rw [getLowerBoundIndex_none] at hlb
      have hb0 : b < l.getD 0 negInf := by
        rcases hlb with h0 | h0
        · omega
        · exact h0
      have hub2 : getUpperBoundIndex (a :: b :: l) a = some 0 := by
        refine getUpperBoundIndex_eq hcadd.1 (by simp) (by rw [List.getD_cons_zero]) ?_
        left; rfl
      have hlb2 : getLowerBoundIndex (a :: b :: l) b = some 1 := by
        refine getLowerBoundIndex_eq hcadd.1 (by simp) ?_ ?_
        · rw [List.getD_cons_succ, List.getD_cons_zero]
        · right
          rw [List.getD_cons_succ, List.getD_cons_succ]
          exact hb0
      rw [removeRangeAux_eq_splice hub2 hlb2, if_neg (by omega), if_neg (by omega)]
      unfold splice
      simp
    · -- both searches land inside
      obtain ⟨hfi, hfa, hfprev⟩ := getUpperBoundIndex_spec l a fi hub
      obtain ⟨hli, hlle, hlnext⟩ := getLowerBoundIndex_spec l b li hlb
      have hcharU := getUpperBoundIndex_char hs hub
      have hcharL := getLowerBoundIndex_char hs hlb
      have hfil : fi ≤ li + 1 := by
        rcases hfprev with h0 | h0
        · omega
        · have h1 : l.getD (fi - 1) negInf ≤ b := le_of_lt (lt_trans h0 hab)
          have := (hcharL (fi - 1) (by omega)).mp h1
          omega
      by_cases hfp : fi % 2 = 0 <;> by_cases hlp : li % 2 = 0
      · -- fi even, li even: query replaces the start boundary of the interval at fi
        have hlib : l.getD li negInf = b := by
          rcases hpairE li hli hlp with h1 | h1
          · exfalso
            rcases hlnext with h2 | h2
            · omega
            · exact absurd (lt_trans hab (lt_of_lt_of_le h2 h1)) (lt_irrefl a)
          · exact le_antisymm hlle h1
        have hbfi : b ≤ l.getD fi negInf := by
          rcases hpairE fi hfi hfp with h1 | h1
          · exfalso
            have h2 : fi + 1 < l.length := by omega
            exact absurd (lt_of_le_of_lt hfa (sorted_getD_lt hs (by omega) h2))
              (not_lt_of_le h1)
          · exact h1
        have hfli : li = fi := by
          have h1 : fi ≤ li := (hcharU li hli).mp (by rw [hlib]; exact le_of_lt hab)
          have h2 : ¬ fi < li := by
            intro h3
            have h4 := sorted_getD_lt hs h3 hli
            rw [hlib] at h4
            exact absurd h4 (not_lt_of_le hbfi)
          omega
        subst hfli
        have hlfib : l.getD li negInf = b := hlib
        have hadd : addRangeAux l (a, b) = l.take li ++ [a] ++ l.drop (li + 1) := by
          rw [addRangeAux_eq_splice hub hlb, if_pos hfp, if_neg (by omega)]
          unfold splice
          have e : li + (li + 1 - li) = li + 1 := by omega
          rw [e]
          rfl
        rw [hadd] at hcadd ⊢
        have hlen' : (l.take li ++ [a] ++ l.drop (li + 1)).length = l.length := by
          rw [length_patch (by omega) (by omega)]
          simp only [List.length_cons, List.length_singleton, List.length_nil]
          omega
        have hgfi : (l.take li ++ [a] ++ l.drop (li + 1)).getD li negInf = a := by
          rw [getD_patch_mid (by omega) (le_refl _) (by simp), Nat.sub_self]
          rfl
        have hub2 : getUpperBoundIndex (l.take li ++ [a] ++ l.drop (li + 1)) a = some li := by
          refine getUpperBoundIndex_eq hcadd.1 (by omega) (le_of_eq hgfi.symm) ?_
          by_cases hl0 : li = 0
          · left; exact hl0
          · right
            have h0 : l.getD (li - 1) negInf < a := by
              rcases hfprev with h0 | h0
              · omega
              · exact h0
            rw [getD_patch_lt (by omega) (by omega)]
            exact h0
        have hlb2 : getLowerBoundIndex (l.take li ++ [a] ++ l.drop (li + 1)) b = some li := by
          refine getLowerBoundIndex_eq hcadd.1 (by omega) (by rw [hgfi]; exact le_of_lt hab) ?_
          right
          have e : li + 1 + (li + 1 - li - 1) = li + 1 := by omega
          rw [getD_patch_ge (by omega) (by simp) (by simp; omega), List.length_singleton, e]
          rcases hlnext with h2 | h2
          · omega
          · exact h2
        rw [removeRangeAux_eq_splice hub2 hlb2, if_neg (by omega), if_pos hlp]
        unfold splice
        have e : li + (li + 1 - li) = li + 1 := by omega
        rw [e, take_patch (by omega), drop_patch (by omega) (by simp)]
        simp only [List.nil_append]
        rw [← hlfib]
        simpa [List.append_assoc] using take_getD_drop (show li < l.length by omega)
      · -- fi even, li odd: the query occupies a fresh gap; insert then delete it
        have hbfi0 : b ≤ l.getD fi negInf := by
          rcases hpairE fi hfi hfp with h1 | h1
          · exfalso
            have h2 : fi + 1 < l.length := by omega
            exact absurd (lt_of_le_of_lt hfa (sorted_getD_lt hs (by omega) h2))
              (not_lt_of_le h1)
          · exact h1
        have hlia0 : l.getD li negInf ≤ a := by
          rcases hpairO li hli (by omega) with h1 | h1
          · exact h1
          · exfalso
            have h2 : l.getD (li - 1) negInf < l.getD li negInf :=
              sorted_getD_lt hs (by omega) hli
            exact absurd (lt_of_le_of_lt h1 (lt_of_lt_of_le h2 hlle)) (lt_irrefl b)
        have hfli : fi = li + 1 := by
          have h1 : ¬ fi ≤ li := by
            intro h2
            have h3 : l.getD fi negInf ≤ l.getD li negInf := sorted_getD_le hs h2 hli
            exact absurd (le_trans hbfi0 (le_trans h3 hlia0)) (not_le_of_lt hab)
          omega
        have hbfi : b < l.getD fi negInf := by
          rcases lt_or_le b (l.getD fi negInf) with h1 | h1
          · exact h1
          · exfalso
            have := (hcharL fi hfi).mp h1
            omega
        have hlia : l.getD li negInf < a := by
          rcases hfprev with h0 | h0
          · omega
          · have e : fi - 1 = li := by omega
            rw [e] at h0
            exact h0
        have hadd : addRangeAux l (a, b) = l.take fi ++ [a, b] ++ l.drop fi := by
          rw [addRangeAux_eq_splice hub hlb, if_pos hfp, if_pos (by omega)]
          unfold splice
          have e : fi + (li + 1 - fi) = fi := by omega
          rw [e]
          rfl
        rw [hadd] at hcadd ⊢
        have hlen' : (l.take fi ++ [a, b] ++ l.drop fi).length = l.length + 2 := by
          rw [length_patch (by omega) (by omega)]
          simp only [List.length_cons, List.length_singleton, List.length_nil]
          omega
        have hgfi : (l.take fi ++ [a, b] ++ l.drop fi).getD fi negInf = a := by
          rw [getD_patch_mid (by omega) (le_refl _) (by simp), Nat.sub_self]
          rfl
        have hgfi1 : (l.take fi ++ [a, b] ++ l.drop fi).getD (fi + 1) negInf = b := by
          rw [getD_patch_mid (by omega) (by omega) (by simp)]
          have e : fi + 1 - fi = 1 := by omega
          rw [e]
          rfl
        have hgfi2 : (l.take fi ++ [a, b] ++ l.drop fi).getD (fi + 2) negInf =
            l.getD fi negInf := by
          rw [getD_patch_ge (by omega) (by simp) (by simp; omega)]
          congr 1
          simp only [List.length_cons, List.length_nil]
          omega
        have hub2 : getUpperBoundIndex (l.take fi ++ [a, b] ++ l.drop fi) a = some fi := by
          refine getUpperBoundIndex_eq hcadd.1 (by omega) (le_of_eq hgfi.symm) ?_
          rcases hfprev with h0 | h0
          · left; exact h0
          · right
            rw [getD_patch_lt (by omega) (by omega)]
            exact h0
        have hlb2 : getLowerBoundIndex (l.take fi ++ [a, b] ++ l.drop fi) b
            = some (fi + 1) := by
          refine getLowerBoundIndex_eq hcadd.1 (by omega) (le_of_eq hgfi1) ?_
          right
          rw [hgfi2]
          exact hbfi
        rw [removeRangeAux_eq_splice hub2 hlb2, if_neg (by omega), if_neg (by omega)]
        unfold splice
        have e : fi + (fi + 1 + 1 - fi) = fi + 2 := by omega
        rw [e, take_patch (by omega), drop_patch (by omega) (by simp)]
        simp [List.take_append_drop]
      · -- fi odd, li even: the query bridges two stored intervals; merge then re-split
        have hfia : l.getD fi negInf = a := by
          rcases hpairO fi hfi (by omega) with h1 | h1
          · exact le_antisymm h1 hfa
          · exfalso
            rcases hfprev with h0 | h0
            · omega
            · exact absurd (lt_trans hab (lt_of_le_of_lt h1 h0)) (lt_irrefl a)
        have hlib : l.getD li negInf = b := by
          rcases hpairE li hli hlp with h1 | h1
          · exfalso
            rcases hlnext with h2 | h2
            · omega
            · exact absurd (lt_trans hab (lt_of_lt_of_le h2 h1)) (lt_irrefl a)
          · exact le_antisymm hlle h1
        have hfli : li = fi + 1 := by
          have h1 : fi < li := by
            have h2 : l.getD fi negInf < l.getD li negInf := by
              rw [hfia, hlib]; exact hab
            by_contra h3
            push_neg at h3
            exact absurd (sorted_getD_le hs h3 hfi) (not_le_of_lt h2)
          have h2 : ¬ fi + 2 ≤ li := by
            intro h3
            rcases hpairE (fi + 1) (by omega) (by omega) with h4 | h4
            · have h5 : l.getD fi negInf < l.getD (fi + 2) negInf :=
                sorted_getD_lt hs (by omega) (by omega)
              rw [hfia] at h5
              exact absurd (lt_of_lt_of_le h5 h4) (lt_irrefl a)
            · have h5 : l.getD (fi + 1) negInf < l.getD li negInf :=
                sorted_getD_lt hs (by omega) hli
              rw [hlib] at h5
              exact absurd (lt_of_le_of_lt h4 h5) (lt_irrefl b)
          omega
        subst hfli
        have hadd : addRangeAux l (a, b) = l.take fi ++ ([] : List JNum) ++ l.drop (fi + 2) := by
          rw [addRangeAux_eq_splice hub hlb, if_neg (by omega), if_neg (by omega)]
          unfold splice
          have e : fi + (fi + 1 + 1 - fi) = fi + 2 := by omega
          rw [e]
          rfl
        rw [hadd] at hcadd ⊢
        have hfi2 : fi + 2 < l.length := by omega
        have hlen' : (l.take fi ++ ([] : List JNum) ++ l.drop (fi + 2)).length
            = l.length - 2 := by
          rw [length_patch (by omega) (by omega)]
          simp only [List.length_cons, List.length_singleton, List.length_nil]
          omega
        have hgfi : (l.take fi ++ ([] : List JNum) ++ l.drop (fi + 2)).getD fi negInf =
            l.getD (fi + 2) negInf := by
          have e : fi + 2 + (fi - fi - 0) = fi + 2 := by omega
          rw [getD_patch_ge (by omega) (by simp) (by simp; omega)]
          simp
        have hub2 : getUpperBoundIndex (l.take fi ++ ([] : List JNum) ++ l.drop (fi + 2)) a
            = some fi := by
          refine getUpperBoundIndex_eq hcadd.1 (by omega) ?_ ?_
          · rw [hgfi]
            have h1 : l.getD fi negInf < l.getD (fi + 2) negInf :=
              sorted_getD_lt hs (by omega) hfi2
            rw [hfia] at h1
            exact le_of_lt h1
          · rcases hfprev with h0 | h0
            · left; exact h0
            · right
              rw [getD_patch_lt (by omega) (by omega)]
              exact h0
        have hlb2 : getLowerBoundIndex (l.take fi ++ ([] : List JNum) ++ l.drop (fi + 2)) b
            = some (fi - 1) := by
          refine getLowerBoundIndex_eq hcadd.1 (by omega) ?_ ?_
          · rw [getD_patch_lt (by omega) (by omega)]
            have h1 : l.getD (fi - 1) negInf < l.getD fi negInf :=
              sorted_getD_lt hs (by omega) (by omega)
            rw [hfia] at h1
            exact le_of_lt (lt_trans h1 hab)
          · right
            have e : fi - 1 + 1 = fi := by omega
            rw [e, hgfi]
            have h1 : l.getD (fi + 1) negInf < l.getD (fi + 2) negInf :=
              sorted_getD_lt hs (by omega) hfi2
            rw [hlib] at h1
            exact h1
        rw [removeRangeAux_eq_splice hub2 hlb2, if_pos (by omega), if_pos (by omega)]
        unfold splice
        have e : fi + (fi - 1 + 1 - fi) = fi := by omega
        rw [e, take_patch (by omega), drop_patch (by omega) (by simp)]
        rw [← hfia, ← hlib]
        simpa [List.append_assoc] using take_two_getD_drop (show fi + 1 < l.length by omega)
      · -- fi odd, li odd: query replaces the end boundary of the interval at fi
        have hfia : l.getD fi negInf = a := by
          rcases hpairO fi hfi (by omega) with h1 | h1
          · exact le_antisymm h1 hfa
          · exfalso
            rcases hfprev with h0 | h0
            · omega
            · exact absurd (lt_trans hab (lt_of_le_of_lt h1 h0)) (lt_irrefl a)
        have hlia : l.getD li negInf ≤ a := by
          rcases hpairO li hli (by omega) with h1 | h1
          · exact h1
          · exfalso
            have h2 : l.getD (li - 1) negInf < l.getD li negInf :=
              sorted_getD_lt hs (by omega) hli
            exact absurd (lt_of_le_of_lt h1 (lt_of_lt_of_le h2 hlle)) (lt_irrefl b)
        have hfli : li = fi := by
          have h1 : fi ≤ li := (hcharL fi hfi).mp (by rw [hfia]; exact le_of_lt hab)
          have h2 : ¬ fi < li := by
            intro h3
            have h4 := sorted_getD_lt hs h3 hli
            rw [hfia] at h4
            exact absurd (lt_of_lt_of_le h4 hlia) (lt_irrefl a)
          omega
        subst hfli
        have hadd : addRangeAux l (a, b) = l.take li ++ [b] ++ l.drop (li + 1) := by
          rw [addRangeAux_eq_splice hub hlb, if_neg (by omega), if_pos (by omega)]
          unfold splice
          have e : li + (li + 1 - li) = li + 1 := by omega
          rw [e]
          rfl
        rw [hadd] at hcadd ⊢
        have hlen' : (l.take li ++ [b] ++ l.drop (li + 1)).length = l.length := by
          rw [length_patch (by omega) (by omega)]
          simp only [List.length_cons, List.length_singleton, List.length_nil]
          omega
        have hgfi : (l.take li ++ [b] ++ l.drop (li + 1)).getD li negInf = b := by
          rw [getD_patch_mid (by omega) (le_refl _) (by simp), Nat.sub_self]
          rfl
        have hub2 : getUpperBoundIndex (l.take li ++ [b] ++ l.drop (li + 1)) a = some li := by
          refine getUpperBoundIndex_eq hcadd.1 (by omega) (by rw [hgfi]; exact le_of_lt hab) ?_
          rcases hfprev with h0 | h0
          · left; exact h0
          · right
            rw [getD_patch_lt (by omega) (by omega)]
            exact h0
        have hlb2 : getLowerBoundIndex (l.take li ++ [b] ++ l.drop (li + 1)) b = some li := by
          refine getLowerBoundIndex_eq hcadd.1 (by omega) (le_of_eq hgfi) ?_
          rcases hlnext with h2 | h2
          · left; omega
          · right
            have h3 : li + 1 < l.length := by
              by_contra hc
              push_neg at hc
              rw [List.getD_eq_default _ _ hc] at h2
              exact absurd h2 (not_lt_negInf b)
            have e : li + 1 + (li + 1 - li - 1) = li + 1 := by omega
            rw [getD_patch_ge (by omega) (by simp) (by simp; omega), List.length_singleton, e]
            exact h2
        rw [removeRangeAux_eq_splice hub2 hlb2, if_pos (by omega), if_neg (by omega)]
        unfold splice
        have e : li + (li + 1 - li) = li + 1 := by omega
        rw [e, take_patch (by omega), drop_patch (by omega) (by simp)]
        simp only [List.append_nil]
        rw [← hfia]
        simpa [List.append_assoc] using take_getD_drop (show li < l.length by omega)

end RangeSet

/-! ## Semantics of `inverse`: the complement view -/

namespace RangeSet

theorem dropFirstPairIfEqual_of_ne {u v : JNum} (h : u ≠ v) (rest : List JNum) :
    dropFirstPairIfEqual (u :: v :: rest) = u :: v :: rest := by
  simp [dropFirstPairIfEqual, h]

/-- On a finite boundary list, `inverse` is exactly the sentinel-wrapped list:
neither degenerate-pair drop fires. -/
theorem inverse_eq_sentinels {l : List JNum} (hf : AllFin l) :
    inverse l = negInf :: l ++ [posInf] := by
  unfold inverse
  have h1 : dropFirstPairIfEqual ((negInf :: l) ++ [posInf]) = (negInf :: l) ++ [posInf] := by
    cases l with
    | nil => decide
    | cons x rest =>
      have hx : IsFin x := hf x (by simp)
      have hne : negInf ≠ x := fun he => hx.1 he.symm
      simp only [List.cons_append]
      exact dropFirstPairIfEqual_of_ne hne _
  rw [h1]
  rcases List.eq_nil_or_concat l with rfl | ⟨l2, x, rfl⟩
  · decide
  · simp only [List.concat_eq_append] at h1 hf ⊢
    have hx : IsFin x := hf x (by simp)
    have hrev : ((negInf :: (l2 ++ [x])) ++ [posInf]).reverse
        = posInf :: x :: (l2.reverse ++ [negInf]) := by simp
    rw [hrev, dropFirstPairIfEqual_of_ne (fun he => hx.2 he.symm) _, ← hrev,
      List.reverse_reverse]

/-- The double inverse reconstructs a finite boundary list exactly. -/
theorem inverse_inverse {l : List JNum} (hf : AllFin l) :
    inverse (inverse l) = l := by
  rw [inverse_eq_sentinels hf]
  unfold inverse
  have h1 : dropFirstPairIfEqual ((negInf :: (negInf :: l ++ [posInf])) ++ [posInf])
      = (l ++ [posInf]) ++ [posInf] := by
    have e : (negInf :: (negInf :: l ++ [posInf])) ++ [posInf]
        = negInf :: negInf :: ((l ++ [posInf]) ++ [posInf]) := by simp
    rw [e]
    simp [dropFirstPairIfEqual]
  rw [h1]
  have h2 : ((l ++ [posInf]) ++ [posInf]).reverse = posInf :: posInf :: l.reverse := by
    simp
  rw [h2]
  have h3 : dropFirstPairIfEqual (posInf :: posInf :: l.reverse) = l.reverse := by
    simp [dropFirstPairIfEqual]
  rw [h3, List.reverse_reverse]

theorem toPairs_sentinel : ∀ (l : List JNum), Even l.length →
    ∀ (a : JNum), toPairs (a :: l ++ [posInf]) = compsFrom a l := by
  intro l
  induction l using toPairs.induct with
  | case1 s e rest ih =>
    intro hev a
    have hev2 : Even rest.length := by
      rw [Nat.even_iff] at hev ⊢
      simp only [List.length_cons] at hev
      omega
    have e1 : a :: (s :: e :: rest) ++ [posInf] = a :: s :: (e :: rest ++ [posInf]) := by
      simp
    rw [e1]
    show (a, s) :: toPairs (e :: rest ++ [posInf]) = (a, s) :: compsFrom e rest
    rw [ih hev2 e]
  | case2 l hshort =>
    intro hev a
    have hlen := length_short l hshort
    have hz : l.length = 0 := by
      rw [Nat.even_iff] at hev
      omega
    rw [List.length_eq_zero.mp hz]
    rfl

theorem toPairs_inverse {l : List JNum} (hf : AllFin l) (hev : Even l.length) :
    toPairs (inverse l) = compsFrom negInf l := by
  rw [inverse_eq_sentinels hf]
  exact toPairs_sentinel l hev negInf

theorem toPairs_mem_elems {l : List JNum} {p : JNum × JNum} (hp : p ∈ toPairs l) :
    p.1 ∈ l ∧ p.2 ∈ l := by
  obtain ⟨j, hj, h1, h2⟩ := mem_toPairs_iff.mp hp
  constructor
  · rw [h1, List.getD_eq_getElem _ _ (by omega)]
    exact List.getElem_mem _
  · rw [h2, List.getD_eq_getElem _ _ hj]
    exact List.getElem_mem _

/-- Every component end of the complement view is either the upper sentinel or
the start of some stored interval. -/
theorem compsFrom_ends : ∀ (l : List JNum) (a : JNum), ∀ c ∈ compsFrom a l,
    c.2 = posInf ∨ ∃ p ∈ toPairs l, c.2 = p.1 := by
  intro l
  induction l using toPairs.induct with
  | case1 s e rest ih =>
    intro a c hc
    simp only [compsFrom, List.mem_cons] at hc
    rcases hc with rfl | hc
    · right
      exact ⟨(s, e), by simp [toPairs], rfl⟩
    · rcases ih e c hc with h | ⟨p, hp, he⟩
      · exact Or.inl h
      · right
        exact ⟨p, by simp [toPairs, hp], he⟩
  | case2 l hshort =>
    intro a c hc
    rw [show compsFrom a l = [(a, posInf)] from ?_] at hc
    · simp at hc
      subst hc
      exact Or.inl rfl
    · match l with
      | [] => rfl
      | [x] => rfl
      | u :: v :: rest => exact absurd rfl (hshort u v rest)

end RangeSet

namespace RangeSet

theorem compsFrom_semantics : ∀ (l : List JNum), Even l.length →
    ∀ (a : JNum), (a :: l).Pairwise (· < ·) → ∀ x : JNum,
      ((∃ c ∈ compsFrom a l, c.1 ≤ x ∧ x ≤ c.2) ↔
        (a ≤ x ∧ ¬ ∃ p ∈ toPairs l, p.1 < x ∧ x < p.2)) := by
  intro l
  induction l using toPairs.induct with
  | case2 l hshort =>
    intro hev a hp x
    have hz : l.length = 0 := by
      have := length_short l hshort
      rw [Nat.even_iff] at hev
      omega
    rw [List.length_eq_zero.mp hz]
    simp [compsFrom, toPairs]
  | case1 s e rest ih =>
    intro hev a hp x
    have hev2 : Even rest.length := by
      rw [Nat.even_iff] at hev ⊢
      simp only [List.length_cons] at hev
      omega
    obtain ⟨h1, h2⟩ := List.pairwise_cons.mp hp
    obtain ⟨h3, h4⟩ := List.pairwise_cons.mp h2
    have has : a < s := h1 s (by simp)
    have hse : s < e := h3 e (by simp)
    have hrestE : ∀ y ∈ rest, e < y := (List.pairwise_cons.mp h4).1
    have hIH := ih hev2 e h4 x
    have hrest_pairs : ∀ p ∈ toPairs rest, e < p.1 := fun p hp2 =>
      hrestE p.1 (toPairs_mem_elems hp2).1
    simp only [compsFrom, toPairs, List.mem_cons]
    constructor
    · rintro ⟨c, hc, hc1, hc2⟩
      rcases hc with rfl | hc
      · refine ⟨hc1, ?_⟩
        rintro ⟨p, hp2, hp1lt, hp2lt⟩
        rcases hp2 with rfl | hp2
        · exact absurd (lt_of_lt_of_le hp1lt hc2) (lt_irrefl s)
        · exact absurd (lt_of_le_of_lt hc2
            (lt_trans hse (lt_trans (hrest_pairs p hp2) hp1lt))) (lt_irrefl x)
      · obtain ⟨hex, hnot⟩ := hIH.mp ⟨c, hc, hc1, hc2⟩
        refine ⟨le_trans (le_of_lt has) (le_trans (le_of_lt hse) hex), ?_⟩
        rintro ⟨p, hp2, hp1lt, hp2lt⟩
        rcases hp2 with rfl | hp2
        · exact absurd (lt_of_le_of_lt hex hp2lt) (lt_irrefl e)
        · exact hnot ⟨p, hp2, hp1lt, hp2lt⟩
    · rintro ⟨hax, hnot⟩
      by_cases hxs : x ≤ s
      · exact ⟨(a, s), by simp, hax, hxs⟩
      · push_neg at hxs
        have hex : e ≤ x := by
          by_contra hcn
          push_neg at hcn
          exact hnot ⟨(s, e), by simp, hxs, hcn⟩
        obtain ⟨c, hc, hc1, hc2⟩ := hIH.mpr
          ⟨hex, fun hw => hnot (by
            obtain ⟨p, hp2, h5, h6⟩ := hw
            exact ⟨p, Or.inr hp2, h5, h6⟩)⟩
        exact ⟨c, Or.inr hc, hc1, hc2⟩

/-- The complement law at the level of points: `inverse` covers exactly the
points not interior to any stored interval. -/
theorem memC_inverse {l : List JNum} (hc : Canonical l) (hf : AllFin l) (x : JNum) :
    MemC x (inverse l) ↔ ¬ MemI x l := by
  obtain ⟨hs, hev⟩ := hc
  unfold MemC MemI
  rw [toPairs_inverse hf hev]
  have hp : (negInf :: l).Pairwise (· < ·) := by
    rw [List.pairwise_cons]
    refine ⟨?_, hs⟩
    intro y hy
    obtain ⟨q, rfl⟩ := isFin_iff.mp (hf y hy)
    exact negInf_lt_fin q
  have hsem := compsFrom_semantics l hev negInf hp x
  simpa using hsem

end RangeSet

/-! ## Characterizing the merge walk of `intersection` against a window -/

namespace RangeSet

theorem flatC_length (cs : List (JNum × JNum)) : (flatC cs).length = 2 * cs.length := by
  induction cs with
  | nil => rfl
  | cons c rest ih => simp [flatC, ih]; omega

theorem flatC_drop (cs : List (JNum × JNum)) : ∀ u : Nat,
    (flatC cs).drop (2 * u) = flatC (cs.drop u) := by
  induction cs with
  | nil => intro u; simp [flatC]
  | cons c rest ih =>
    intro u
    match u with
    | 0 => simp
    | v + 1 =>
      have e : 2 * (v + 1) = 2 * v + 1 + 1 := by ring
      rw [e]
      simp only [flatC, List.drop_succ_cons, List.drop_drop]
      rw [← ih v]

theorem flatC_getD_snd (cs : List (JNum × JNum)) : ∀ r : Nat, r < cs.length →
    (flatC cs).getD (2 * r + 1) negInf = (cs.getD r (negInf, negInf)).2 := by
  induction cs with
  | nil => intro r hr; simp at hr
  | cons c rest ih =>
    intro r hr
    match r with
    | 0 => simp [flatC]
    | v + 1 =>
      have e : 2 * (v + 1) + 1 = 2 * v + 1 + 1 + 1 := by ring
      rw [e]
      simp only [flatC, List.getD_cons_succ]
      exact ih v (by simp at hr; omega)

theorem dropClipF_skip (f' : JNum) : ∀ (u : Nat) (cs : List (JNum × JNum)),
    u ≤ cs.length → (∀ r, r < u → (cs.getD r (negInf, negInf)).2 ≤ f') →
    dropClipF f' cs = dropClipF f' (cs.drop u) := by
  intro u
  induction u with
  | zero => intro cs _ _; rfl
  | succ v ih =>
    intro cs hlen hbelow
    match cs with
    | [] => simp at hlen
    | c :: rest =>
      have h0 : c.2 ≤ f' := by
        have := hbelow 0 (by omega)
        simpa using this
      obtain ⟨s, e⟩ := c
      rw [show dropClipF f' ((s, e) :: rest) = dropClipF f' rest from by
        simp [dropClipF, h0]]
      rw [List.drop_succ_cons]
      exact ih rest (by simpa using hlen) (fun r hr => by
        have := hbelow (r + 1) (by omega)
        simpa using this)

theorem interLoop_phase1 (A : List JNum) (f' t' : JNum) :
    ∀ (cs : List (JNum × JNum)) (j fuel : Nat) (acc : List JNum),
      A.drop j = flatC cs → j % 2 = 0 → A.length + 2 ≤ fuel + j →
      interLoop A [f', t'] j 1 fuel acc = acc ++ tailClipsFlat t' cs := by
  intro cs
  induction cs with
  | nil =>
    intro j fuel acc hdrop hpar hfuel
    have hj : A.length ≤ j := by
      have hlen := congrArg List.length hdrop
      simp only [List.length_drop, flatC, List.length_nil] at hlen
      omega
    cases fuel with
    | zero => simp [interLoop, tailClipsFlat, flatC]
    | succ n =>
      simp only [interLoop]
      rw [if_neg (by rintro ⟨h, _⟩; omega)]
      simp [tailClipsFlat, flatC]
  | cons c rest ih =>
    obtain ⟨s, e⟩ := c
    intro j fuel acc hdrop hpar hfuel
    have hlen2 : j + 1 < A.length := by
      have hlen := congrArg List.length hdrop
      simp only [List.length_drop, flatC, List.length_cons] at hlen
      omega
    have hgj : A.getD j negInf = s := by
      have h0 := getD_drop_eq (l := A) (k := j) (j := 0) (by omega)
      rw [hdrop] at h0
      simpa [flatC] using h0.symm
    have hgj1 : A.getD (j + 1) negInf = e := by
      have h0 := getD_drop_eq (l := A) (k := j) (j := 1) (by omega)
      rw [hdrop] at h0
      simpa [flatC] using h0.symm
    have hdrop2 : A.drop (j + 2) = flatC rest := by
      have h0 : A.drop (j + 2) = (A.drop j).drop 2 := by
        rw [List.drop_drop]
      rw [h0, hdrop]
      simp [flatC]

    cases fuel with
    | zero => omega
    | succ n =>
      simp only [interLoop]
      rw [if_pos ⟨by omega, by simp⟩]
      simp only [hgj]
      have hbj : ([f', t'] : List JNum).getD 1 negInf = t' := rfl
      by_cases hst : t' ≤ s
      · -- the component starts at or after the window end: emit nothing and stop
        rw [if_neg (by
          rintro (h | ⟨h, hodd⟩)
          · exact absurd hst (not_le_of_lt (by simpa [hbj] using h))
          · omega)]
        rw [if_neg (by omega)]
        cases n with
        | zero => omega
        | succ m =>
          simp only [interLoop]
          rw [if_neg (by rintro ⟨_, h⟩; simp at h)]
          simp [tailClipsFlat, hst]
      · push_neg at hst
        rw [if_pos (Or.inl (by simpa [hbj] using hst))]
        rw [if_pos (by omega)]
        cases n with
        | zero => omega
        | succ m =>
          simp only [interLoop]
          rw [if_pos ⟨by omega, by simp⟩]
          simp only [hgj1]
          by_cases het : e ≤ t'
          · rw [if_pos (by
              rcases lt_or_eq_of_le het with h | h
              · exact Or.inl (by simpa [hbj] using h)
              · exact Or.inr ⟨by simpa [hbj] using h, by omega⟩)]
            rw [if_pos (by omega)]
            rw [ih (j + 2) m (acc ++ [s] ++ [e]) hdrop2 (by omega) (by omega)]
            simp [tailClipsFlat, not_le_of_lt hst, het]
          · push_neg at het
            rw [if_neg (by
              rintro (h | ⟨h, _⟩)
              · exact absurd (by simpa [hbj] using h) (not_lt_of_le (le_of_lt het))
              · exact absurd (by simpa [hbj] using h) (ne_of_gt het))]
            rw [if_pos (by omega)]
            cases m with
            | zero => omega
            | succ m2 =>
              simp only [interLoop]
              rw [if_neg (by rintro ⟨_, h⟩; simp at h)]
              simp [tailClipsFlat, not_le_of_lt hst, not_le_of_lt het]

theorem interLoop_phase0 (A : List JNum) (f' t' : JNum) (hft : f' < t') :
    ∀ (cs : List (JNum × JNum)) (j fuel : Nat) (acc : List JNum),
      A.drop j = flatC cs → j % 2 = 0 → A.length + 3 ≤ fuel + j →
      (∀ c ∈ cs, c.1 < c.2) →
      interLoop A [f', t'] j 0 fuel acc = acc ++ tailClipsFlat t' (dropClipF f' cs) := by
  intro cs
  induction cs with
  | nil =>
    intro j fuel acc hdrop hpar hfuel hwf
    have hj : A.length ≤ j := by
      have hlen := congrArg List.length hdrop
      simp only [List.length_drop, flatC, List.length_nil] at hlen
      omega
    cases fuel with
    | zero => simp [interLoop, tailClipsFlat, dropClipF]
    | succ n =>
      simp only [interLoop]
      rw [if_neg (by rintro ⟨h, _⟩; omega)]
      simp [tailClipsFlat, dropClipF]
  | cons c rest ih =>
    obtain ⟨s, e⟩ := c
    intro j fuel acc hdrop hpar hfuel hwf
    have hse : s < e := hwf (s, e) (by simp)
    have hwf2 : ∀ c ∈ rest, c.1 < c.2 := fun c hc => hwf c (by simp [hc])
    have hlen2 : j + 1 < A.length := by
      have hlen := congrArg List.length hdrop
      simp only [List.length_drop, flatC, List.length_cons] at hlen
      omega
    have hgj : A.getD j negInf = s := by
      have h0 := getD_drop_eq (l := A) (k := j) (j := 0) (by omega)
      rw [hdrop] at h0
      simpa [flatC] using h0.symm
    have hgj1 : A.getD (j + 1) negInf = e := by
      have h0 := getD_drop_eq (l := A) (k := j) (j := 1) (by omega)
      rw [hdrop] at h0
      simpa [flatC] using h0.symm
    have hdrop2 : A.drop (j + 2) = flatC rest := by
      have h0 : A.drop (j + 2) = (A.drop j).drop 2 := by
        rw [List.drop_drop]
      rw [h0, hdrop]
      simp [flatC]
    cases fuel with
    | zero => omega
    | succ n =>
      simp only [interLoop]
      rw [if_pos ⟨by omega, by simp⟩]
      simp only [hgj]
      have hb0 : ([f', t'] : List JNum).getD 0 negInf = f' := rfl
      have hbj : ([f', t'] : List JNum).getD 1 negInf = t' := rfl
      rcases lt_trichotomy s f' with hsf | hsf | hsf
      · -- the component starts below the window: step past its start boundary
        rw [if_pos (Or.inl (by simpa [hb0] using hsf))]
        rw [if_neg (by omega)]
        cases n with
        | zero => omega
        | succ m =>
          simp only [interLoop]
          rw [if_pos ⟨by omega, by simp⟩]
          simp only [hgj1]
          rcases lt_trichotomy e f' with hef | hef | hef
          · -- the whole component lies below the window: skip it entirely
            rw [if_pos (Or.inl (by simpa [hb0] using hef))]
            rw [if_neg (by omega)]
            rw [ih (j + 2) m acc hdrop2 (by omega) (by omega) hwf2]
            simp [dropClipF, le_of_lt hef]
          · -- the component ends exactly at the window start: tie resolved to A
            rw [if_pos (Or.inr ⟨by simpa [hb0] using hef, by omega⟩)]
            rw [if_neg (by omega)]
            rw [ih (j + 2) m acc hdrop2 (by omega) (by omega) hwf2]
            simp [dropClipF, le_of_eq hef]
          · -- the window starts strictly inside the component: emit f', enter phase 1
            rw [if_neg (by
              rintro (h | ⟨h, _⟩)
              · exact absurd (by simpa [hb0] using h) (not_lt_of_le (le_of_lt hef))
              · exact absurd (by simpa [hb0] using h) (ne_of_gt hef))]
            rw [if_pos (by omega)]
            cases m with
            | zero => omega
            | succ m2 =>
              simp only [interLoop]
              rw [if_pos ⟨by omega, by simp⟩]
              simp only [hgj1]
              have hmax : max s f' = f' := max_eq_right (le_of_lt hsf)
              by_cases het : e ≤ t'
              · rw [if_pos (by
                  rcases lt_or_eq_of_le het with h | h
                  · exact Or.inl (by simpa [hbj] using h)
                  · exact Or.inr ⟨by simpa [hbj] using h, by omega⟩)]
                rw [if_pos (by omega)]
                show interLoop A [f', t'] (j + 2) 1 m2 (acc ++ [f'] ++ [e]) = _
                rw [interLoop_phase1 A f' t' rest (j + 2) m2 (acc ++ [f'] ++ [e])
                  hdrop2 (by omega) (by omega)]
                simp [dropClipF, tailClipsFlat, not_le_of_lt hef, hmax,
                  not_le_of_lt hft, het]
              · push_neg at het
                rw [if_neg (by
                  rintro (h | ⟨h, _⟩)
                  · exact absurd (by simpa [hbj] using h) (not_lt_of_le (le_of_lt het))
                  · exact absurd (by simpa [hbj] using h) (ne_of_gt het))]
                rw [if_pos (by omega)]
                cases m2 with
                | zero => omega
                | succ m3 =>
                  simp only [interLoop]
                  rw [if_neg (by rintro ⟨_, h⟩; simp at h)]
                  simp [dropClipF, tailClipsFlat, not_le_of_lt hef, hmax,
                    not_le_of_lt hft, not_le_of_lt het]
      · -- the component starts exactly at the window start: enter phase 1 here
        rw [if_neg (by
          rintro (h | ⟨_, hodd⟩)
          · exact absurd (by simpa [hb0] using h) (by rw [hsf]; exact lt_irrefl f')
          · omega)]
        rw [if_neg (by omega)]
        show interLoop A [f', t'] j 1 n acc = _
        rw [interLoop_phase1 A f' t' ((s, e) :: rest) j n acc hdrop hpar (by omega)]
        have hmax : max s f' = s := max_eq_left (le_of_eq hsf.symm)
        simp [dropClipF, not_le_of_lt (hsf ▸ hse), hmax]
      · -- the component starts inside the window: enter phase 1 here
        rw [if_neg (by
          rintro (h | ⟨h, _⟩)
          · exact absurd (by simpa [hb0] using h) (not_lt_of_le (le_of_lt hsf))
          · exact absurd (by simpa [hb0] using h) (ne_of_gt hsf))]
        rw [if_neg (by omega)]
        show interLoop A [f', t'] j 1 n acc = _
        rw [interLoop_phase1 A f' t' ((s, e) :: rest) j n acc hdrop hpar (by omega)]
        have hmax : max s f' = s := max_eq_left (le_of_lt hsf)
        simp [dropClipF, not_le_of_lt (lt_trans hsf hse), hmax]

theorem addRangeAux_nil (x y : JNum) : addRangeAux [] (x, y) = [x, y] := by
  rw [addRangeAux_push ((getUpperBoundIndex_none [] x).mpr (Or.inl rfl))]
  rfl

/-- A finite sorted boundary list stays sorted with the infinity sentinels
attached. -/
theorem sorted_sentinels {l : List JNum} (hs : l.Pairwise (· < ·)) (hf : AllFin l) :
    (negInf :: l ++ [posInf]).Pairwise (· < ·) := by
  rw [List.cons_append, List.pairwise_cons]
  constructor
  · intro y hy
    rcases List.mem_append.mp hy with h | h
    · obtain ⟨q, rfl⟩ := isFin_iff.mp (hf y h)
      exact negInf_lt_fin q
    · simp only [List.mem_singleton] at h
      subst h
      exact negInf_lt_posInf
  · rw [List.pairwise_append]
    refine ⟨hs, List.pairwise_singleton _ _, ?_⟩
    intro y hy z hz
    simp only [List.mem_singleton] at hz
    subst hz
    obtain ⟨q, rfl⟩ := isFin_iff.mp (hf y hy)
    exact fin_lt_posInf q

/-- Components with a sorted flattening are nondegenerate. -/
theorem comps_wf : ∀ (cs : List (JNum × JNum)), (flatC cs).Pairwise (· < ·) →
    ∀ c ∈ cs, c.1 < c.2 := by
  intro cs
  induction cs with
  | nil => intro _ c hc; simp at hc
  | cons c rest ih =>
    intro hp d hd
    obtain ⟨s, e⟩ := c
    simp only [flatC] at hp
    rw [List.pairwise_cons] at hp
    obtain ⟨h1, h2⟩ := hp
    rw [List.pairwise_cons] at h2
    rcases List.mem_cons.mp hd with rfl | hd2
    · exact h1 e (by simp)
    · exact ih h2.2 d hd2

/-- Flattening the complement components of a finite boundary list recovers the
sentinel-extended list. -/
theorem flatC_compsFrom : ∀ (l : List JNum), Even l.length →
    ∀ a, flatC (compsFrom a l) = a :: (l ++ [posInf]) := by
  intro l
  induction l using toPairs.induct with
  | case1 s e rest ih =>
    intro hev a
    have hev2 : Even rest.length := by
      rw [Nat.even_iff] at hev ⊢
      simp only [List.length_cons] at hev
      omega
    simp only [compsFrom, flatC]
    rw [ih hev2 e]
    simp
  | case2 l hshort =>
    intro hev a
    have hlen := length_short l hshort
    have hz : l.length = 0 := by
      rw [Nat.even_iff] at hev
      omega
    rw [List.length_eq_zero.mp hz]
    rfl

/-- The merge walk of `intersection` against a two-point window, started at the
floor index of the window's start, produces exactly the clipped components. -/
theorem interLoop_from_floor (cs : List (JNum × JNum)) (f' t' : JNum) (hft : f' < t')
    (hsort : (flatC cs).Pairwise (· < ·)) (i0 fuel : Nat) (acc : List JNum)
    (hfuel : (flatC cs).length + 3 ≤ fuel + i0)
    (hi0 : getLowerBoundIndex (flatC cs) f' = some i0) :
    interLoop (flatC cs) [f', t'] i0 0 fuel acc
      = acc ++ tailClipsFlat t' (dropClipF f' cs) := by
  have hwf := comps_wf cs hsort
  obtain ⟨hi0len, hi0le, hi0next⟩ := getLowerBoundIndex_spec _ _ _ hi0
  have hchar := getLowerBoundIndex_char hsort hi0
  have hlen : (flatC cs).length = 2 * cs.length := flatC_length cs
  rcases Nat.even_or_odd i0 with he | ho
  · obtain ⟨u, hu⟩ := he
    have hdropA : (flatC cs).drop i0 = flatC (cs.drop u) := by
      rw [show i0 = 2 * u from by omega]
      exact flatC_drop cs u
    rw [interLoop_phase0 (flatC cs) f' t' hft (cs.drop u) i0 fuel acc hdropA
      (by omega) (by omega) (fun c hc => hwf c (List.mem_of_mem_drop hc))]
    have hskip : dropClipF f' cs = dropClipF f' (cs.drop u) :=
      dropClipF_skip f' u cs (by omega) (fun r hr => by
        rw [← flatC_getD_snd cs r (by omega)]
        exact (hchar (2 * r + 1) (by omega)).mpr (by omega))
    rw [← hskip]
  · obtain ⟨u, hu⟩ := ho
    have hulen : u < cs.length := by omega
    have hgi0 : (flatC cs).getD i0 negInf = (cs.getD u (negInf, negInf)).2 := by
      rw [hu]
      exact flatC_getD_snd cs u hulen
    cases fuel with
    | zero => omega
    | succ n =>
      simp only [interLoop]
      rw [if_pos ⟨by omega, by simp⟩]
      simp only [hgi0]
      have hb0 : ([f', t'] : List JNum).getD 0 negInf = f' := rfl
      have hcle : (cs.getD u (negInf, negInf)).2 ≤ f' := by
        rw [← hgi0]
        exact hi0le
      rw [if_pos (by
        rcases lt_or_eq_of_le hcle with h | h
        · exact Or.inl (by simpa [hb0] using h)
        · exact Or.inr ⟨by simpa [hb0] using h, by omega⟩)]
      rw [if_neg (by omega)]
      have hdropA : (flatC cs).drop (i0 + 1) = flatC (cs.drop (u + 1)) := by
        rw [show i0 + 1 = 2 * (u + 1) from by omega]
        exact flatC_drop cs (u + 1)
      rw [interLoop_phase0 (flatC cs) f' t' hft (cs.drop (u + 1)) (i0 + 1) n acc hdropA
        (by omega) (by omega) (fun d hd => hwf d (List.mem_of_mem_drop hd))]
      have hskip : dropClipF f' cs = dropClipF f' (cs.drop (u + 1)) :=
        dropClipF_skip f' (u + 1) cs (by omega) (fun r hr => by
          rw [← flatC_getD_snd cs r (by omega)]
          exact (hchar (2 * r + 1) (by omega)).mpr (by omega))
      rw [← hskip]

/-- The gap computation of deduping `fetchEvents`, in closed form: the
complement components of the coverage set, clipped to the requested window. -/
theorem computeGaps_eq_clips {cov : List JNum} (hc : Canonical cov) (hf : AllFin cov)
    {f t : ℚ} (hft : f < t) :
    GoogleCalendarEventFetcher.computeGaps cov f t
      = tailClipsFlat (fin t) (dropClipF (fin f) (compsFrom negInf cov)) := by
  obtain ⟨hs, hev⟩ := hc
  have hflat : flatC (compsFrom negInf cov) = negInf :: (cov ++ [posInf]) :=
    flatC_compsFrom cov hev negInf
  have hinv : inverse cov = flatC (compsFrom negInf cov) := by
    rw [inverse_eq_sentinels hf, hflat]
    rfl
  have hsort : (flatC (compsFrom negInf cov)).Pairwise (· < ·) := by
    rw [hflat]
    exact sorted_sentinels hs hf
  unfold GoogleCalendarEventFetcher.computeGaps
  rw [addRangeAux_nil, hinv]
  unfold intersection
  have hA0 : (flatC (compsFrom negInf cov)).getD 0 negInf = negInf := by
    rw [hflat]
    rfl
  have hBnone : getLowerBoundIndex [fin f, fin t] negInf = none := by
    rw [getLowerBoundIndex_none]
    right
    exact negInf_lt_fin f
  rw [hA0, hBnone]
  simp only [List.getD_cons_zero]
  obtain ⟨i0, hi0⟩ := @getLowerBoundIndex_isSome (flatC (compsFrom negInf cov))
    (fin f) (by rw [hflat]; simp) (by rw [hA0]; exact le_of_lt (negInf_lt_fin f))
  rw [hi0]
  simp only [Option.getD_some, Option.getD_none]
  rw [interLoop_from_floor (compsFrom negInf cov) (fin f) (fin t)
    (fin_lt_fin.mpr hft) hsort i0 _ [] (by simp) hi0]
  simp

/-- Both endpoints of every component appear in the flattening. -/
theorem mem_flatC : ∀ (cs : List (JNum × JNum)), ∀ c ∈ cs,
    c.1 ∈ flatC cs ∧ c.2 ∈ flatC cs := by
  intro cs
  induction cs with
  | nil => intro c hc; simp at hc
  | cons d rest ih =>
    intro c hc
    rcases List.mem_cons.mp hc with rfl | hc2
    · simp [flatC]
    · obtain ⟨h1, h2⟩ := ih c hc2
      exact ⟨by simp [flatC, h1], by simp [flatC, h2]⟩

/-- Every boundary emitted by the clipping walk is an original boundary or the
window end, and lies at or below the window end. -/
theorem tailClips_mem (t' : JNum) : ∀ (cs : List (JNum × JNum)),
    ∀ x ∈ tailClipsFlat t' cs, (x ∈ flatC cs ∨ x = t') ∧ x ≤ t' := by
  intro cs
  induction cs with
  | nil => intro x hx; simp [tailClipsFlat] at hx
  | cons c rest ih =>
    obtain ⟨s, e⟩ := c
    intro x hx
    simp only [tailClipsFlat] at hx
    by_cases hts : t' ≤ s
    · rw [if_pos hts] at hx; simp at hx
    · rw [if_neg hts] at hx
      push_neg at hts
      by_cases het : e ≤ t'
      · rw [if_pos het] at hx
        rcases List.mem_cons.mp hx with rfl | hx2
        · exact ⟨Or.inl (by simp [flatC]), le_of_lt hts⟩
        · rcases List.mem_cons.mp hx2 with rfl | hx3
          · exact ⟨Or.inl (by simp [flatC]), het⟩
          · obtain ⟨h1, h2⟩ := ih x hx3
            refine ⟨?_, h2⟩
            rcases h1 with h | h
            · exact Or.inl (by simp [flatC, h])
            · exact Or.inr h
      · rw [if_neg het] at hx
        rcases List.mem_cons.mp hx with rfl | hx2
        · exact ⟨Or.inl (by simp [flatC]), le_of_lt hts⟩
        · simp only [List.mem_singleton] at hx2
          subst hx2
          exact ⟨Or.inr rfl, le_refl _⟩

/-- Clipping a sorted component list yields a canonical boundary list. -/
theorem tailClips_canonical (t' : JNum) : ∀ (cs : List (JNum × JNum)),
    (flatC cs).Pairwise (· < ·) → Canonical (tailClipsFlat t' cs) := by
  intro cs
  induction cs with
  | nil =>
    intro _
    exact ⟨List.Pairwise.nil, by simp [tailClipsFlat]⟩
  | cons c rest ih =>
    obtain ⟨s, e⟩ := c
    intro hp
    simp only [flatC] at hp
    rw [List.pairwise_cons] at hp
    obtain ⟨hs1, hp2⟩ := hp
    rw [List.pairwise_cons] at hp2
    obtain ⟨he1, hprest⟩ := hp2
    have hse : s < e := hs1 e (by simp)
    simp only [tailClipsFlat]
    by_cases hts : t' ≤ s
    · rw [if_pos hts]
      exact ⟨List.Pairwise.nil, by simp⟩
    · rw [if_neg hts]
      push_neg at hts
      by_cases het : e ≤ t'
      · rw [if_pos het]
        obtain ⟨ihp, ihev⟩ := ih hprest
        constructor
        · rw [List.pairwise_cons]
          constructor
          · intro y hy
            rcases List.mem_cons.mp hy with rfl | hy2
            · exact hse
            · obtain ⟨hmem, hle⟩ := tailClips_mem t' rest y hy2
              rcases hmem with h | rfl
              · exact lt_trans hse (he1 y h)
              · exact lt_of_lt_of_le hse het
          · rw [List.pairwise_cons]
            refine ⟨?_, ihp⟩
            intro y hy
            obtain ⟨hmem, hle⟩ := tailClips_mem t' rest y hy
            rcases hmem with h | rfl
            · exact he1 y h
            · rcases lt_or_eq_of_le het with h | h
              · exact h
              · exfalso
                subst h
                cases rest with
                | nil => simp [tailClipsFlat] at hy
                | cons d r2 =>
                  obtain ⟨s2, e2⟩ := d
                  have hlt : e < s2 := he1 s2 (by simp [flatC])
                  simp [tailClipsFlat, le_of_lt hlt] at hy
        · simp only [List.length_cons]
          rw [Nat.even_iff] at ihev ⊢
          omega
      · rw [if_neg het]
        refine ⟨?_, by simp⟩
        rw [List.pairwise_cons]
        refine ⟨?_, List.pairwise_singleton _ _⟩
        intro y hy
        simp only [List.mem_singleton] at hy
        subst hy
        exact hts

/-- Dropping the components below the window start preserves sortedness of the
flattening. -/
theorem dropClipF_sorted (f' : JNum) : ∀ (cs : List (JNum × JNum)),
    (flatC cs).Pairwise (· < ·) → (flatC (dropClipF f' cs)).Pairwise (· < ·) := by
  intro cs
  induction cs with
  | nil => intro _; simp [dropClipF, flatC]
  | cons c rest ih =>
    obtain ⟨s, e⟩ := c
    intro hp
    simp only [flatC] at hp
    rw [List.pairwise_cons] at hp
    obtain ⟨hs1, hp2⟩ := hp
    rw [List.pairwise_cons] at hp2
    obtain ⟨he1, hprest⟩ := hp2
    have hse : s < e := hs1 e (by simp)
    simp only [dropClipF]
    by_cases hef : e ≤ f'
    · rw [if_pos hef]
      exact ih hprest
    · rw [if_neg hef]
      push_neg at hef
      simp only [flatC]
      rw [List.pairwise_cons]
      constructor
      · intro y hy
        rcases List.mem_cons.mp hy with rfl | hy2
        · exact max_lt hse hef
        · have hey : e < y := he1 y hy2
          exact max_lt (lt_trans hse hey) (lt_trans hef hey)
      · rw [List.pairwise_cons]
        exact ⟨he1, hprest⟩

/-- Every component surviving the start clip begins at or above the window
start, and is contained in an original component with the same end. -/
theorem dropClipF_comps (f' : JNum) : ∀ (cs : List (JNum × JNum)),
    (flatC cs).Pairwise (· < ·) →
    ∀ c' ∈ dropClipF f' cs, f' ≤ c'.1 ∧ ∃ c ∈ cs, c.1 ≤ c'.1 ∧ c'.2 = c.2 := by
  intro cs
  induction cs with
  | nil => intro _ c' hc'; simp [dropClipF] at hc'
  | cons c rest ih =>
    obtain ⟨s, e⟩ := c
    intro hp c' hc'
    simp only [flatC] at hp
    rw [List.pairwise_cons] at hp
    obtain ⟨hs1, hp2⟩ := hp
    rw [List.pairwise_cons] at hp2
    obtain ⟨he1, hprest⟩ := hp2
    simp only [dropClipF] at hc'
    by_cases hef : e ≤ f'
    · rw [if_pos hef] at hc'
      obtain ⟨h1, cc, hcc, h2, h3⟩ := ih hprest c' hc'
      exact ⟨h1, cc, List.mem_cons_of_mem _ hcc, h2, h3⟩
    · rw [if_neg hef] at hc'
      push_neg at hef
      rcases List.mem_cons.mp hc' with rfl | hc2
      · exact ⟨le_max_right s f', (s, e), by simp, le_max_left s f', rfl⟩
      · have h1 : e < c'.1 := he1 c'.1 (mem_flatC rest c' hc2).1
        exact ⟨le_of_lt (lt_trans hef h1), c', List.mem_cons_of_mem _ hc2,
          le_refl _, rfl⟩

/-- Every emitted gap ends at or below the window end and starts at a component
start, staying inside that component. -/
theorem toPairs_tailClips (t' : JNum) : ∀ (cs : List (JNum × JNum)),
    ∀ p ∈ toPairs (tailClipsFlat t' cs),
      p.2 ≤ t' ∧ ∃ c ∈ cs, c.1 = p.1 ∧ p.2 ≤ c.2 := by
  intro cs
  induction cs with
  | nil => intro p hp; simp [tailClipsFlat, toPairs] at hp
  | cons c rest ih =>
    obtain ⟨s, e⟩ := c
    intro p hp
    simp only [tailClipsFlat] at hp
    by_cases hts : t' ≤ s
    · rw [if_pos hts] at hp
      simp [toPairs] at hp
    · rw [if_neg hts] at hp
      by_cases het : e ≤ t'
      · rw [if_pos het] at hp
        simp only [toPairs, List.mem_cons] at hp
        rcases hp with rfl | hp2
        · exact ⟨het, (s, e), by simp, rfl, le_refl _⟩
        · obtain ⟨h1, cc, hcc, h2, h3⟩ := ih p hp2
          exact ⟨h1, cc, List.mem_cons_of_mem _ hcc, h2, h3⟩
      · rw [if_neg het] at hp
        push_neg at het
        simp only [toPairs, List.mem_cons] at hp
        rcases hp with rfl | hp2
        · exact ⟨le_refl _, (s, e), by simp, rfl, le_of_lt het⟩
        · simp [toPairs] at hp2

/-- A component ending above the window start survives the start clip, with its
start pulled up at most to the window start. -/
theorem dropClipF_find (f' : JNum) : ∀ (cs : List (JNum × JNum)) (c : JNum × JNum),
    c ∈ cs → f' < c.2 →
    ∃ c' ∈ dropClipF f' cs, c'.1 ≤ max c.1 f' ∧ c'.2 = c.2 := by
  intro cs
  induction cs with
  | nil => intro c hc _; simp at hc
  | cons d rest ih =>
    obtain ⟨s, e⟩ := d
    intro c hc hfc
    simp only [dropClipF]
    by_cases hef : e ≤ f'
    · rw [if_pos hef]
      rcases List.mem_cons.mp hc with rfl | hc2
      · exact absurd hfc (not_lt_of_le hef)
      · exact ih c hc2 hfc
    · rw [if_neg hef]
      rcases List.mem_cons.mp hc with rfl | hc2
      · exact ⟨(max s f', e), by simp, le_refl _, rfl⟩
      · exact ⟨c, List.mem_cons_of_mem _ hc2, le_max_left _ _, rfl⟩

/-- A component starting below the window end contributes a gap with the same
start, extending at least to the smaller of the component end and window end. -/
theorem tailClips_find (t' : JNum) : ∀ (cs : List (JNum × JNum)),
    (flatC cs).Pairwise (· < ·) → ∀ c ∈ cs, c.1 < t' →
    ∃ p ∈ toPairs (tailClipsFlat t' cs), p.1 = c.1 ∧ min c.2 t' ≤ p.2 := by
  intro cs
  induction cs with
  | nil => intro _ c hc _; simp at hc
  | cons d rest ih =>
    obtain ⟨s, e⟩ := d
    intro hp c hc hct
    simp only [flatC] at hp
    rw [List.pairwise_cons] at hp
    obtain ⟨hs1, hp2⟩ := hp
    rw [List.pairwise_cons] at hp2
    obtain ⟨he1, hprest⟩ := hp2
    have hse : s < e := hs1 e (by simp)
    simp only [tailClipsFlat]
    by_cases hts : t' ≤ s
    · exfalso
      rcases List.mem_cons.mp hc with rfl | hc2
      · exact absurd hct (not_lt_of_le hts)
      · have h1 : e < c.1 := he1 c.1 (mem_flatC rest c hc2).1
        exact absurd hct (not_lt_of_le (le_trans hts (le_of_lt (lt_trans hse h1))))
    · rw [if_neg hts]
      by_cases het : e ≤ t'
      · rw [if_pos het]
        rcases List.mem_cons.mp hc with rfl | hc2
        · exact ⟨(s, e), by simp [toPairs], rfl, min_le_left _ _⟩
        · obtain ⟨p, hpm, h1, h2⟩ := ih hprest c hc2 hct
          exact ⟨p, by simp only [toPairs, List.mem_cons]; exact Or.inr hpm, h1, h2⟩
      · rw [if_neg het]
        push_neg at het
        rcases List.mem_cons.mp hc with rfl | hc2
        · exact ⟨(s, t'), by simp [toPairs], rfl, min_le_right _ _⟩
        · exfalso
          have h1 : e < c.1 := he1 c.1 (mem_flatC rest c hc2).1
          exact absurd hct (not_lt_of_le (le_of_lt (lt_trans het h1)))

/-- Every component start of the complement view is the running left endpoint
or the end of some stored interval. -/
theorem compsFrom_starts : ∀ (l : List JNum) (a : JNum), ∀ c ∈ compsFrom a l,
    c.1 = a ∨ ∃ p ∈ toPairs l, c.1 = p.2 := by
  intro l
  induction l using toPairs.induct with
  | case1 s e rest ih =>
    intro a c hc
    simp only [compsFrom, List.mem_cons] at hc
    rcases hc with rfl | hc
    · exact Or.inl rfl
    · rcases ih e c hc with h | ⟨p, hpm, h⟩
      · exact Or.inr ⟨(s, e), by simp [toPairs], h⟩
      · exact Or.inr ⟨p, by simp [toPairs, hpm], h⟩
  | case2 l hshort =>
    intro a c hc
    rw [show compsFrom a l = [(a, posInf)] from ?_] at hc
    · simp at hc
      subst hc
      exact Or.inl rfl
    · match l with
      | [] => rfl
      | [x] => rfl
      | u :: v :: rest => exact absurd rfl (hshort u v rest)

/-- The computed gap list is itself canonical. -/
theorem computeGaps_canonical {cov : List JNum} (hc : Canonical cov) (hf : AllFin cov)
    {f t : ℚ} (hft : f < t) :
    Canonical (GoogleCalendarEventFetcher.computeGaps cov f t) := by
  rw [computeGaps_eq_clips hc hf hft]
  apply tailClips_canonical
  apply dropClipF_sorted
  rw [flatC_compsFrom cov hc.2 negInf]
  exact sorted_sentinels hc.1 hf

/-- Gap soundness: every computed gap is a nondegenerate subinterval of the
requested window none of whose points is interior to the coverage set. -/
theorem computeGaps_sound {cov : List JNum} (hc : Canonical cov) (hf : AllFin cov)
    {f t : ℚ} (hft : f < t) :
    ∀ p ∈ toPairs (GoogleCalendarEventFetcher.computeGaps cov f t),
      fin f ≤ p.1 ∧ p.1 < p.2 ∧ p.2 ≤ fin t ∧
      ∀ x : JNum, p.1 ≤ x → x ≤ p.2 → ¬ MemI x cov := by
  intro p hp
  have hsortS : (flatC (compsFrom negInf cov)).Pairwise (· < ·) := by
    rw [flatC_compsFrom cov hc.2 negInf]
    exact sorted_sentinels hc.1 hf
  have hsortD := dropClipF_sorted (fin f) _ hsortS
  rw [computeGaps_eq_clips hc hf hft] at hp
  have hplt : p.1 < p.2 := toPairs_lt (tailClips_canonical (fin t) _ hsortD).1 hp
  obtain ⟨ht, c', hc', h1, h2⟩ := toPairs_tailClips (fin t) _ p hp
  obtain ⟨hfc', c, hcm, h3, h4⟩ := dropClipF_comps (fin f) _ hsortS c' hc'
  refine ⟨h1 ▸ hfc', hplt, ht, ?_⟩
  intro x hx1 hx2
  have hc1x : c.1 ≤ x := le_trans h3 (le_trans (le_of_eq h1) hx1)
  have hxc2 : x ≤ c.2 := le_trans (le_trans hx2 h2) (le_of_eq h4)
  have hmemc : MemC x (inverse cov) := by
    unfold MemC
    rw [toPairs_inverse hf hc.2]
    exact ⟨c, hcm, hc1x, hxc2⟩
  exact (memC_inverse hc hf x).mp hmemc

/-- Gap completeness: every nondegenerate subinterval of the window whose
interior is uncovered lies inside a single computed gap. -/
theorem computeGaps_complete {cov : List JNum} (hc : Canonical cov) (hf : AllFin cov)
    {f t : ℚ} (hft : f < t) {a b : JNum} (hfa : fin f ≤ a) (hab : a < b)
    (hbt : b ≤ fin t) (hunc : ∀ x : JNum, a < x → x < b → ¬ MemI x cov) :
    ∃ p ∈ toPairs (GoogleCalendarEventFetcher.computeGaps cov f t),
      p.1 ≤ a ∧ b ≤ p.2 := by
  have hsortS : (flatC (compsFrom negInf cov)).Pairwise (· < ·) := by
    rw [flatC_compsFrom cov hc.2 negInf]
    exact sorted_sentinels hc.1 hf
  have hsortD := dropClipF_sorted (fin f) _ hsortS
  obtain ⟨hax0, hx0b⟩ := between_spec hab
  have hmc : MemC (between a b) (inverse cov) :=
    (memC_inverse hc hf _).mpr (hunc _ hax0 hx0b)
  unfold MemC at hmc
  rw [toPairs_inverse hf hc.2] at hmc
  obtain ⟨c, hcm, hcx1, hcx2⟩ := hmc
  have hca : c.1 ≤ a := by
    by_contra hlt
    push_neg at hlt
    rcases compsFrom_starts cov negInf c hcm with h0 | ⟨q, hqm, hq⟩
    · rw [h0] at hlt
      exact absurd hlt (not_lt_of_le (le_of_lt (lt_of_lt_of_le (negInf_lt_fin f) hfa)))
    · have hqlt : q.1 < q.2 := toPairs_lt hc.1 hqm
      have hmax : max q.1 a < c.1 := max_lt (hq ▸ hqlt) hlt
      obtain ⟨hy1, hy2⟩ := between_spec hmax
      exact hunc (between (max q.1 a) c.1)
        (lt_of_le_of_lt (le_max_right _ _) hy1)
        (lt_trans hy2 (lt_of_le_of_lt hcx1 hx0b))
        ⟨q, hqm, lt_of_le_of_lt (le_max_left _ _) hy1, hq ▸ hy2⟩
  have hbc2 : b ≤ c.2 := by
    by_contra hlt
    push_neg at hlt
    rcases compsFrom_ends cov negInf c hcm with h0 | ⟨q, hqm, hq⟩
    · rw [h0] at hlt
      exact absurd hlt (not_lt_of_le (le_trans hbt (le_of_lt (fin_lt_posInf t))))
    · have hqlt : q.1 < q.2 := toPairs_lt hc.1 hqm
      have hmin : c.2 < min q.2 b := lt_min (hq ▸ hqlt) hlt
      obtain ⟨hy1, hy2⟩ := between_spec hmin
      exact hunc (between c.2 (min q.2 b))
        (lt_trans (lt_of_lt_of_le hax0 hcx2) hy1)
        (lt_of_lt_of_le hy2 (min_le_right _ _))
        ⟨q, hqm, hq ▸ hy1, lt_of_lt_of_le hy2 (min_le_left _ _)⟩
  have hfc2 : fin f < c.2 := lt_of_le_of_lt hfa (lt_of_lt_of_le hab hbc2)
  obtain ⟨c', hc'm, hA, hB⟩ := dropClipF_find (fin f) _ c hcm hfc2
  have hc'a : c'.1 ≤ a := le_trans hA (max_le hca hfa)
  have hbc' : b ≤ c'.2 := by rw [hB]; exact hbc2
  have hct : c'.1 < fin t := lt_of_le_of_lt hc'a (lt_of_lt_of_le hab hbt)
  obtain ⟨p, hpm, hp1, hp2⟩ := tailClips_find (fin t) _ hsortD c' hc'm hct
  refine ⟨p, ?_, by rw [hp1]; exact hc'a, le_trans (le_min hbc' hbt) hp2⟩
  rw [computeGaps_eq_clips hc hf hft]
  exact hpm

/-- If a single stored interval already contains the whole window, the gap
computation yields the empty set. -/
theorem computeGaps_covered {cov : List JNum} (hc : Canonical cov) (hf : AllFin cov)
    {f t : ℚ} (hft : f < t) {q : JNum × JNum} (hq : q ∈ toPairs cov)
    (hq1 : q.1 ≤ fin f) (hq2 : fin t ≤ q.2) :
    GoogleCalendarEventFetcher.computeGaps cov f t = [] := by
  by_contra hne
  have hcan := computeGaps_canonical hc hf hft
  set g := GoogleCalendarEventFetcher.computeGaps cov f t with hg
  have hlen : 1 < g.length := by
    have h0 : g.length ≠ 0 := fun h => hne (List.length_eq_zero.mp h)
    have hev := hcan.2
    rw [Nat.even_iff] at hev
    omega
  have hp : (g.getD 0 negInf, g.getD 1 negInf) ∈ toPairs g :=
    mem_toPairs_iff.mpr ⟨0, by simpa using hlen, by simp, by simp⟩
  obtain ⟨hgf, hglt, hgt, hunc⟩ := computeGaps_sound hc hf hft _ hp
  obtain ⟨hx1, hx2⟩ := between_spec hglt
  exact hunc _ (le_of_lt hx1) (le_of_lt hx2)
    ⟨q, hq, lt_of_le_of_lt (le_trans hq1 hgf) hx1,
      lt_of_lt_of_le hx2 (le_trans hgt hq2)⟩

end RangeSet


/-! ## Fetcher-level lemmas -/

namespace GoogleCalendarEventFetcher

theorem requestEvents_calls {D T : Type} (cfg : FetcherConfig D T) (oracle : Oracle D)
    (w : World D T) (r : JNum × JNum) :
    (requestEvents cfg oracle w r).1.calls = w.calls ++ [r] := by
  unfold requestEvents
  by_cases h : (oracle w.calls.length r).ok <;> simp [h]

theorem requestEvents_ok {D T : Type} (cfg : FetcherConfig D T) (oracle : Oracle D)
    (w : World D T) (r : JNum × JNum) (h : (oracle w.calls.length r).ok = true) :
    requestEvents cfg oracle w r =
      ({ st := { requestedRanges := RangeSet.addRangeAux w.st.requestedRanges r,
                 pending := w.st.pending,
                 allEvents := (oracle w.calls.length r).items.foldl
                   (fun m e => mapSet m e.id (cfg.transform e)) w.st.allEvents },
         calls := w.calls ++ [r] }, none) := by
  unfold requestEvents
  simp [h]

theorem requestEvents_fail {D T : Type} (cfg : FetcherConfig D T) (oracle : Oracle D)
    (w : World D T) (r : JNum × JNum) (h : (oracle w.calls.length r).ok = false) :
    requestEvents cfg oracle w r =
      ({ st := { requestedRanges := RangeSet.removeRangeAux
                   (RangeSet.addRangeAux w.st.requestedRanges r) r,
                 pending := w.st.pending,
                 allEvents := w.st.allEvents },
         calls := w.calls ++ [r] }, some (oracle w.calls.length r)) := by
  unfold requestEvents
  simp [h]

/-- The request fold of deduping `fetchEvents` appends exactly one remote call
per processed range, in order, whatever the oracle answers. -/
theorem fold_calls {D T : Type} (cfg : FetcherConfig D T) (oracle : Oracle D) :
    ∀ (rs : List (JNum × JNum)) (w : World D T) (o : Option (GResponse D)),
      (rs.foldl (fun (acc : World D T × Option (GResponse D)) r =>
          let res := requestEvents cfg oracle acc.1 r
          (res.1, acc.2 <|> res.2)) (w, o)).1.calls = w.calls ++ rs := by
  intro rs
  induction rs with
  | nil => intro w o; simp
  | cons r rest ih =>
    intro w o
    rw [List.foldl_cons]
    show (List.foldl _
      ((requestEvents cfg oracle w r).1, o <|> (requestEvents cfg oracle w r).2)
      rest).1.calls = w.calls ++ r :: rest
    rw [ih, requestEvents_calls]
    simp

/-- Deduping-mode unfolding of `fetchEvents` past its two guards. -/
theorem fetchEvents_dedupe_split {D T : Type} (cfg : FetcherConfig D T)
    (oracle : Oracle D) (w : World D T) {frm til : ℚ} (h : frm < til)
    (hmode : cfg.alwaysFetchFresh = false) :
    fetchEvents cfg oracle w frm til =
      (let folded := (RangeSet.toPairs (computeGaps w.st.requestedRanges frm til)).foldl
          (fun (acc : World D T × Option (GResponse D)) r =>
            let res := requestEvents cfg oracle acc.1 r
            (res.1, acc.2 <|> res.2)) (w, none)
       match folded.2 with
       | none => (folded.1, Except.ok (folded.1.st.allEvents.map Prod.snd))
       | some resp => (folded.1, Except.error (FetchErr.fetchFailed resp))) := by
  unfold fetchEvents
  rw [if_neg (not_le_of_lt h), hmode]
  rfl

/-- Fresh-mode unfolding of `fetchEvents` past its two guards. -/
theorem fetchEvents_fresh_split {D T : Type} (cfg : FetcherConfig D T)
    (oracle : Oracle D) (w : World D T) {frm til : ℚ} (h : frm < til)
    (hmode : cfg.alwaysFetchFresh = true) :
    fetchEvents cfg oracle w frm til =
      (match requestEvents cfg oracle w (fin frm, fin til) with
        | (w1, none) => (w1, Except.ok (w1.st.allEvents.map Prod.snd))
        | (w1, some resp) => (w1, Except.error (FetchErr.fetchFailed resp))) := by
  unfold fetchEvents
  rw [if_neg (not_le_of_lt h), hmode]
  rfl

/-- Deduping-mode call log: one remote call per computed gap, appended in
order. -/
theorem fetchEvents_dedupe_calls {D T : Type} (cfg : FetcherConfig D T)
    (oracle : Oracle D) (w : World D T) {frm til : ℚ} (h : frm < til)
    (hmode : cfg.alwaysFetchFresh = false) :
    (fetchEvents cfg oracle w frm til).1.calls
      = w.calls ++ RangeSet.toPairs (computeGaps w.st.requestedRanges frm til) := by
  rw [fetchEvents_dedupe_split cfg oracle w h hmode]
  rcases hF : ((RangeSet.toPairs (computeGaps w.st.requestedRanges frm til)).foldl
      (fun (acc : World D T × Option (GResponse D)) r =>
        let res := requestEvents cfg oracle acc.1 r
        (res.1, acc.2 <|> res.2)) (w, none)) with ⟨wF, oF⟩
  have hcalls : wF.calls
      = w.calls ++ RangeSet.toPairs (computeGaps w.st.requestedRanges frm til) := by
    rw [← fold_calls cfg oracle _ w none, hF]
  simp only [hF]
  cases oF <;> simpa using hcalls

end GoogleCalendarEventFetcher

namespace RangeSet

/-- Each computed gap is disjoint from every stored interval (touching at a
boundary point allowed). -/
theorem computeGaps_disjoint {cov : List JNum} (hc : Canonical cov) (hf : AllFin cov)
    {f t : ℚ} (hft : f < t) :
    ∀ p ∈ toPairs (GoogleCalendarEventFetcher.computeGaps cov f t),
      ∀ q ∈ toPairs cov, q.2 ≤ p.1 ∨ p.2 ≤ q.1 := by
  intro p hp q hq
  obtain ⟨h1, h2, h3, hunc⟩ := computeGaps_sound hc hf hft p hp
  by_contra hcon
  push_neg at hcon
  obtain ⟨hq2, hq1⟩ := hcon
  have hqlt : q.1 < q.2 := toPairs_lt hc.1 hq
  have hmax : max q.1 p.1 < min q.2 p.2 := max_lt (lt_min hqlt hq1) (lt_min hq2 h2)
  obtain ⟨hy1, hy2⟩ := between_spec hmax
  exact hunc (between (max q.1 p.1) (min q.2 p.2))
    (le_of_lt (lt_of_le_of_lt (le_max_right _ _) hy1))
    (le_of_lt (lt_of_lt_of_le hy2 (min_le_right _ _)))
    ⟨q, hq, lt_of_le_of_lt (le_max_left _ _) hy1, lt_of_lt_of_le hy2 (min_le_left _ _)⟩

/-- On an empty coverage set the whole window is the single gap. -/
theorem computeGaps_nil {f t : ℚ} (hft : f < t) :
    GoogleCalendarEventFetcher.computeGaps [] f t = [fin f, fin t] := by
  rw [computeGaps_eq_clips ⟨List.Pairwise.nil, by simp⟩ (fun x hx => by simp at hx) hft]
  have h1 : ¬ (posInf ≤ fin f) := not_le_of_lt (fin_lt_posInf f)
  have h2 : max negInf (fin f) = fin f := max_eq_right (le_of_lt (negInf_lt_fin f))
  have h3 : ¬ (fin t ≤ fin f) := not_le_of_lt (fin_lt_fin.mpr hft)
  have h4 : ¬ (posInf ≤ fin t) := not_le_of_lt (fin_lt_posInf t)
  show tailClipsFlat (fin t) (dropClipF (fin f) [(negInf, posInf)]) = [fin f, fin t]
  simp [dropClipF, tailClipsFlat, h1, h2, h3, h4]

end RangeSet

namespace GoogleCalendarEventFetcher

/-- If every oracle response fails, the request fold leaves the fetcher state
exactly as found (optimistic coverage claims are all rolled back) and records
the response of the first issued request as the pending failure. -/
theorem fold_allfail {D T : Type} (cfg : FetcherConfig D T) (oracle : Oracle D)
    (hfail : ∀ n r, (oracle n r).ok = false) :
    ∀ (rs : List (JNum × JNum)) (w : World D T) (o : Option (GResponse D)),
      Canonical w.st.requestedRanges →
      (∀ p ∈ rs, p.1 < p.2 ∧
        ∀ q ∈ RangeSet.toPairs w.st.requestedRanges, q.2 ≤ p.1 ∨ p.2 ≤ q.1) →
      (rs.foldl (fun (acc : World D T × Option (GResponse D)) r =>
          let res := requestEvents cfg oracle acc.1 r
          (res.1, acc.2 <|> res.2)) (w, o)).1.st = w.st ∧
      (rs.foldl (fun (acc : World D T × Option (GResponse D)) r =>
          let res := requestEvents cfg oracle acc.1 r
          (res.1, acc.2 <|> res.2)) (w, o)).2
        = (o <|> (rs.head?.map (fun r => oracle w.calls.length r))) := by
  intro rs
  induction rs with
  | nil => intro w o _ _; simp
  | cons r rest ih =>
    intro w o hcan hdis
    obtain ⟨hr, hdisr⟩ := hdis r (by simp)
    have hw1 : requestEvents cfg oracle w r
        = ({ st := w.st, calls := w.calls ++ [r] }, some (oracle w.calls.length r)) := by
      rw [requestEvents_fail cfg oracle w r (hfail _ _)]
      rw [RangeSet.addRemove_id hcan hr hdisr]
    rw [List.foldl_cons]
    show (List.foldl _
        ((requestEvents cfg oracle w r).1, o <|> (requestEvents cfg oracle w r).2)
        rest).1.st = w.st ∧
      (List.foldl _
        ((requestEvents cfg oracle w r).1, o <|> (requestEvents cfg oracle w r).2)
        rest).2 = _
    rw [hw1]
    obtain ⟨ih1, ih2⟩ := ih { st := w.st, calls := w.calls ++ [r] }
      (o <|> some (oracle w.calls.length r)) hcan
      (fun p hp => hdis p (List.mem_cons_of_mem _ hp))
    constructor
    · exact ih1
    · rw [ih2]
      cases o <;> simp

end GoogleCalendarEventFetcher

namespace GoogleCalendarEventFetcher

/-- Total-failure behaviour of deduping `fetchEvents`: the state is restored
exactly (coverage rolled back, collection and registry untouched), every gap
was still attempted, and the error carries the first failing response. -/
theorem fetchEvents_allfail {D T : Type} (cfg : FetcherConfig D T) (oracle : Oracle D)
    (hfail : ∀ n r, (oracle n r).ok = false) (w : World D T) {frm til : ℚ}
    (h : frm < til) (hmode : cfg.alwaysFetchFresh = false)
    (hcan : Canonical w.st.requestedRanges) (hfin : AllFin w.st.requestedRanges) :
    (fetchEvents cfg oracle w frm til).1.st = w.st ∧
    (fetchEvents cfg oracle w frm til).1.calls
      = w.calls ++ RangeSet.toPairs (computeGaps w.st.requestedRanges frm til) ∧
    ∀ p G', RangeSet.toPairs (computeGaps w.st.requestedRanges frm til) = p :: G' →
      (fetchEvents cfg oracle w frm til).2
        = Except.error (FetchErr.fetchFailed (oracle w.calls.length p)) := by
  have hsound := RangeSet.computeGaps_sound hcan hfin (f := frm) (t := til) h
  have hdisj := RangeSet.computeGaps_disjoint hcan hfin (f := frm) (t := til) h
  have hprops : ∀ p ∈ RangeSet.toPairs (computeGaps w.st.requestedRanges frm til),
      p.1 < p.2 ∧ ∀ q ∈ RangeSet.toPairs w.st.requestedRanges, q.2 ≤ p.1 ∨ p.2 ≤ q.1 :=
    fun p hp => ⟨(hsound p hp).2.1, hdisj p hp⟩
  obtain ⟨hst, ho⟩ := fold_allfail cfg oracle hfail
    (RangeSet.toPairs (computeGaps w.st.requestedRanges frm til)) w none hcan hprops
  rw [fetchEvents_dedupe_split cfg oracle w h hmode]
  rcases hF : ((RangeSet.toPairs (computeGaps w.st.requestedRanges frm til)).foldl
      (fun (acc : World D T × Option (GResponse D)) r =>
        let res := requestEvents cfg oracle acc.1 r
        (res.1, acc.2 <|> res.2)) (w, none)) with ⟨wF, oF⟩
  rw [hF] at hst ho
  have hwFcalls : wF.calls
      = w.calls ++ RangeSet.toPairs (computeGaps w.st.requestedRanges frm til) := by
    rw [← fold_calls cfg oracle _ w none, hF]
  have hst' : wF.st = w.st := by simpa using hst
  have ho' : oF = (RangeSet.toPairs
      (computeGaps w.st.requestedRanges frm til)).head?.map
      (fun r => oracle w.calls.length r) := by simpa using ho
  simp only [hF]
  refine ⟨?_, ?_, ?_⟩
  · cases oF <;> simp [hst']
  · cases oF <;> simp [hwFcalls]
  · intro p G' hG
    rw [hG] at ho'
    simp only [List.head?_cons, Option.map_some] at ho'
    subst ho'
    simp

end GoogleCalendarEventFetcher

namespace RangeSet

/-- Reading the sentinel-extended list one position up recovers the stored
boundaries. -/
theorem sentinel_getD {l : List JNum} : ∀ i, i < l.length →
    (((negInf :: l) ++ [posInf]) : List JNum).getD (i + 1) negInf = l.getD i negInf := by
  intro i hi
  rw [List.getD_append _ _ _ _ (by simp; omega)]
  simp

/-- The merge walk of `intersection l (inverse l)` from the aligned state
`(j, j + 2)` never emits a boundary. -/
theorem selfInter_loop {l : List JNum} (hs : l.Pairwise (· < ·)) :
    ∀ (n j fuel : Nat), 1 ≤ n → j + 2 * n = l.length → j % 2 = 0 → 4 * n ≤ fuel →
      interLoop l ((negInf :: l) ++ [posInf]) j (j + 2) fuel [] = [] := by
  intro n
  induction n with
  | zero => intro j fuel h1 _ _ _; omega
  | succ m ih =>
    intro j fuel _ hjn hpar hfuel
    have hBlen : (((negInf :: l) ++ [posInf]) : List JNum).length = l.length + 2 := by
      simp
    have hjL : j + 2 ≤ l.length := by omega
    have hj1 : j + 1 < l.length := by omega
    have hBj2 : (((negInf :: l) ++ [posInf]) : List JNum).getD (j + 2) negInf
        = l.getD (j + 1) negInf := sentinel_getD (j + 1) hj1
    have hlt1 : l.getD j negInf < l.getD (j + 1) negInf :=
      sorted_getD_lt hs (by omega) hj1
    cases fuel with
    | zero => omega
    | succ f1 =>
      simp only [interLoop]
      rw [if_pos ⟨by omega, by omega⟩]
      rw [hBj2]
      rw [if_pos (Or.inl hlt1)]
      rw [if_neg (by omega)]
      cases f1 with
      | zero => omega
      | succ f2 =>
        simp only [interLoop]
        rw [if_pos ⟨by omega, by omega⟩]
        rw [hBj2]
        rw [if_pos (Or.inr ⟨rfl, by omega⟩)]
        rw [if_neg (by omega)]
        show interLoop l ((negInf :: l) ++ [posInf]) (j + 2) (j + 2) f2 [] = []
        cases m with
        | zero =>
          have hL : j + 2 = l.length := by omega
          cases f2 with
          | zero => omega
          | succ f3 =>
            simp only [interLoop]
            rw [if_neg (by rintro ⟨hA, _⟩; omega)]
        | succ m2 =>
          have hj2 : j + 2 < l.length := by omega
          have hlt2 : l.getD (j + 1) negInf < l.getD (j + 2) negInf :=
            sorted_getD_lt hs (by omega) hj2
          have hBj3 : (((negInf :: l) ++ [posInf]) : List JNum).getD (j + 3) negInf
              = l.getD (j + 2) negInf := sentinel_getD (j + 2) hj2
          cases f2 with
          | zero => omega
          | succ f3 =>
            simp only [interLoop]
            rw [if_pos ⟨by omega, by omega⟩]
            rw [hBj2]
            rw [if_neg (by
              rintro (h | ⟨h, _⟩)
              · exact absurd h (not_lt_of_lt hlt2)
              · exact absurd h (ne_of_gt hlt2))]
            rw [if_neg (by omega)]
            cases f3 with
            | zero => omega
            | succ f4 =>
              simp only [interLoop]
              rw [if_pos ⟨by omega, by omega⟩]
              rw [show j + 2 + 1 = j + 3 from rfl, hBj3]
              rw [if_neg (by
                rintro (h | ⟨_, hodd⟩)
                · exact absurd h (lt_irrefl _)
                · omega)]
              rw [if_neg (by omega)]
              show interLoop l ((negInf :: l) ++ [posInf]) (j + 2) (j + 2 + 2) f4 [] = []
              exact ih (j + 2) f4 (by omega) (by omega) (by omega) (by omega)

/-- The complement law at the operation level: a canonical finite set does not
intersect its own complement. -/
theorem intersection_inverse_self {l : List JNum} (hc : Canonical l) (hf : AllFin l) :
    intersection l (inverse l) = [] := by
  obtain ⟨hs, hev⟩ := hc
  rw [inverse_eq_sentinels hf]
  by_cases hL : l.length = 0
  · rw [List.length_eq_zero.mp hL]
    rfl
  · have hev2 : l.length % 2 = 0 := Nat.even_iff.mp hev
    have hlen2 : 2 ≤ l.length := by omega
    have hBlen : (((negInf :: l) ++ [posInf]) : List JNum).length = l.length + 2 := by
      simp
    unfold intersection
    have hB0 : (((negInf :: l) ++ [posInf]) : List JNum).getD 0 negInf = negInf := rfl
    have hA0 : getLowerBoundIndex l negInf = none := by
      rw [getLowerBoundIndex_none]
      right
      have hmem : l.getD 0 negInf ∈ l := by
        rw [List.getD_eq_getElem _ _ (by omega)]
        exact List.getElem_mem _
      obtain ⟨q, hq⟩ := isFin_iff.mp (hf _ hmem)
      rw [hq]
      exact negInf_lt_fin q
    have hBsort : (((negInf :: l) ++ [posInf]) : List JNum).Pairwise (· < ·) :=
      sorted_sentinels hs hf
    have hiB : getLowerBoundIndex ((negInf :: l) ++ [posInf]) (l.getD 0 negInf)
        = some 1 := by
      apply getLowerBoundIndex_eq hBsort
      · omega
      · rw [sentinel_getD 0 (by omega)]
      · right
        rw [show (1 : Nat) + 1 = 1 + 1 from rfl, sentinel_getD 1 (by omega)]
        exact sorted_getD_lt hs (by omega) (by omega)
    rw [hB0, hA0, hiB]
    simp only [Option.getD_none, Option.getD_some]
    cases hfc : l.length + (((negInf :: l) ++ [posInf]) : List JNum).length + 1 with
    | zero => omega
    | succ f1 =>
      simp only [interLoop]
      rw [if_pos ⟨by omega, by omega⟩]
      rw [show (0 : Nat) + 1 = 0 + 1 from rfl, sentinel_getD 0 (by omega)]
      rw [if_neg (by
        rintro (h | ⟨_, hodd⟩)
        · exact absurd h (lt_irrefl _)
        · omega)]
      rw [if_neg (by omega)]
      show interLoop l ((negInf :: l) ++ [posInf]) 0 (0 + 2) f1 [] = []
      exact selfInter_loop hs (l.length / 2) 0 f1 (by omega) (by omega) (by omega)
        (by omega)

end RangeSet

namespace RangeSet

/-- The checked `addRange` preserves canonicity. -/
theorem addRange_canonical {l l' : List JNum} (hc : Canonical l) {r : JNum × JNum}
    (h : addRange l r = .ok l') : Canonical l' := by
  unfold addRange at h
  by_cases hv : isValidRange r
  · rw [if_pos hv] at h
    injection h with h
    subst h
    obtain ⟨a, b⟩ := r
    exact addRangeAux_canonical hc (by simpa [isValidRange] using hv)
  · rw [if_neg hv] at h
    cases h

/-- The checked `removeRange` preserves canonicity. -/
theorem removeRange_canonical {l l' : List JNum} (hc : Canonical l) {r : JNum × JNum}
    (h : removeRange l r = .ok l') : Canonical l' := by
  unfold removeRange at h
  by_cases hv : isValidRange r
  · rw [if_pos hv] at h
    injection h with h
    subst h
    obtain ⟨a, b⟩ := r
    exact removeRangeAux_canonical hc (by simpa [isValidRange] using hv)
  · rw [if_neg hv] at h
    cases h

/-- Any successful run of the constructor fold yields a canonical list. -/
theorem foldlM_addRange_canonical : ∀ (rs : List (JNum × JNum)) (acc : List JNum),
    Canonical acc → ∀ l', rs.foldlM addRange acc = .ok l' → Canonical l' := by
  intro rs
  induction rs with
  | nil =>
    intro acc hacc l' h
    simp only [List.foldlM_nil] at h
    injection h with h
    subst h
    exact hacc
  | cons r rest ih =>
    intro acc hacc l' h
    rw [List.foldlM_cons] at h
    rcases ha : addRange acc r with e | acc'
    · rw [ha] at h
      exact (Except.noConfusion h : Canonical l')
    · rw [ha] at h
      exact ih acc' (addRange_canonical hacc ha) l' h

/-- Canonicity of every set built by the constructor. -/
theorem ofRanges_canonical {rs : List (JNum × JNum)} {l' : List JNum}
    (h : ofRanges rs = .ok l') : Canonical l' :=
  foldlM_addRange_canonical rs [] ⟨List.Pairwise.nil, by simp⟩ l' h

end RangeSet

/-! ## Properties of the `Map.set` merge -/

/-- Overwriting an existing key leaves the key sequence unchanged; a fresh key
is appended at the end. -/
theorem mapSet_keys {T : Type} (m : List (String × T)) (k : String) (v : T) :
    (mapSet m k v).map Prod.fst =
      (if m.any (fun p => p.1 = k) then m.map Prod.fst else m.map Prod.fst ++ [k]) := by
  unfold mapSet
  by_cases h : m.any (fun p => p.1 = k)
  · rw [if_pos h, if_pos h, List.map_map]
    apply List.map_congr_left
    intro p hp
    by_cases hpk : p.1 = k
    · simp [hpk]
    · simp [hpk]
  · rw [if_neg h, if_neg h]
    simp

/-- In the overwrite branch, the first entry carrying the key becomes `(k, v)`
and is still the first entry carrying the key. -/
theorem map_overwrite_find {T : Type} (k : String) (v : T) :
    ∀ (m : List (String × T)), m.any (fun p => p.1 = k) →
      (m.map (fun p => if p.1 = k then (k, v) else p)).find? (fun p => p.1 = k)
        = some (k, v) := by
  intro m
  induction m with
  | nil => intro h; simp at h
  | cons p rest ih =>
    intro h
    by_cases hp : p.1 = k
    · simp only [List.map_cons, if_pos hp]
      rw [List.find?_cons_of_pos _ (by simp)]
    · simp only [List.map_cons, if_neg hp]
      rw [List.find?_cons_of_neg _ (by simp [hp])]
      apply ih
      simp only [List.any_cons, Bool.or_eq_true] at h
      rcases h with h | h
      · exact absurd (by simpa using h) hp
      · exact h

/-- Merging a pair makes `(k, v)` the entry found for key `k` (last write
wins). -/
theorem mapSet_find {T : Type} (m : List (String × T)) (k : String) (v : T) :
    (mapSet m k v).find? (fun p => p.1 = k) = some (k, v) := by
  unfold mapSet
  by_cases h : m.any (fun p => p.1 = k)
  · rw [if_pos h]
    exact map_overwrite_find k v m h
  · rw [if_neg h]
    rw [List.find?_append]
    have hnone : m.find? (fun p => p.1 = k) = none := by
      rw [List.find?_eq_none]
      intro p hp
      simp only [List.any_eq_true] at h
      push_neg at h
      simpa using h p hp
    rw [hnone]
    simp

/-- Entries for other keys are not touched by the overwrite map. -/
theorem map_overwrite_find_other {T : Type} {k k' : String} (hne : k' ≠ k) (v : T) :
    ∀ (m : List (String × T)),
      (m.map (fun p => if p.1 = k then (k, v) else p)).find? (fun p => p.1 = k')
        = m.find? (fun p => p.1 = k') := by
  intro m
  induction m with
  | nil => simp
  | cons p rest ih =>
    by_cases hp : p.1 = k
    · simp only [List.map_cons, if_pos hp]
      rw [List.find?_cons_of_neg _ (by simpa using Ne.symm hne),
        List.find?_cons_of_neg _ (by simp [hp, Ne.symm hne]), ih]
    · simp only [List.map_cons, if_neg hp]
      by_cases hp' : p.1 = k'
      · rw [List.find?_cons_of_pos _ (by simp [hp']),
          List.find?_cons_of_pos _ (by simp [hp'])]
      · rw [List.find?_cons_of_neg _ (by simp [hp']),
          List.find?_cons_of_neg _ (by simp [hp']), ih]

/-- Merging one pair leaves every other key's entry unchanged. -/
theorem mapSet_find_other {T : Type} (m : List (String × T)) {k k' : String}
    (hne : k' ≠ k) (v : T) :
    (mapSet m k v).find? (fun p => p.1 = k') = m.find? (fun p => p.1 = k') := by
  unfold mapSet
  by_cases h : m.any (fun p => p.1 = k)
  · rw [if_pos h]
    exact map_overwrite_find_other hne v m
  · rw [if_neg h]
    rw [List.find?_append]
    have h2 : ([(k, v)] : List (String × T)).find? (fun p => p.1 = k') = none := by
      simp [Ne.symm hne]
    rw [h2]
    simp

/-- Re-merging an already-present key changes no identifier and no position. -/
theorem mapSet_idem_keys {T : Type} (m : List (String × T)) (k : String) (v v' : T) :
    (mapSet (mapSet m k v) k v').map Prod.fst = (mapSet m k v).map Prod.fst := by
  have hfind := mapSet_find m k v
  have hany : (mapSet m k v).any (fun p => p.1 = k) = true := by
    rw [List.any_eq_true]
    exact ⟨(k, v), List.mem_of_find?_eq_some hfind, by simp⟩
  rw [mapSet_keys, if_pos hany]

/-! ## The claims -/

open GoogleCalendarEventFetcher

/-- C1: in deduping mode (`alwaysFetchFresh` false), every
`fetchEvents(from, to)` with `from < to` issues exactly one remote call per
computed gap, appended in order to the call log; the gaps are exactly the
maximal sub-intervals of `[from, to]` missing from the committed coverage set
(each gap is a nondegenerate uncovered sub-interval of the window, every
uncovered nondegenerate sub-interval lies inside a single gap), and a window
already contained in one stored interval produces zero remote calls. -/
theorem claim_C1 {D T : Type} (cfg : FetcherConfig D T) (oracle : Oracle D)
    (w : World D T) {frm til : ℚ} (hft : frm < til)
    (hmode : cfg.alwaysFetchFresh = false)
    (hcan : Canonical w.st.requestedRanges) (hfin : AllFin w.st.requestedRanges) :
    (fetchEvents cfg oracle w frm til).1.calls
        = w.calls ++ RangeSet.toPairs (computeGaps w.st.requestedRanges frm til) ∧
    (∀ p ∈ RangeSet.toPairs (computeGaps w.st.requestedRanges frm til),
      fin frm ≤ p.1 ∧ p.1 < p.2 ∧ p.2 ≤ fin til ∧
        ∀ x : JNum, p.1 ≤ x → x ≤ p.2 → ¬ MemI x w.st.requestedRanges) ∧
    (∀ a b : JNum, fin frm ≤ a → a < b → b ≤ fin til →
      (∀ x : JNum, a < x → x < b → ¬ MemI x w.st.requestedRanges) →
      ∃ p ∈ RangeSet.toPairs (computeGaps w.st.requestedRanges frm til),
        p.1 ≤ a ∧ b ≤ p.2) ∧
    (∀ q ∈ RangeSet.toPairs w.st.requestedRanges, q.1 ≤ fin frm → fin til ≤ q.2 →
      (fetchEvents cfg oracle w frm til).1.calls = w.calls) := by
  refine ⟨fetchEvents_dedupe_calls cfg oracle w hft hmode,
    RangeSet.computeGaps_sound hcan hfin hft,
    fun a b h1 h2 h3 h4 => RangeSet.computeGaps_complete hcan hfin hft h1 h2 h3 h4,
    ?_⟩
  intro q hq h1 h2
  rw [fetchEvents_dedupe_calls cfg oracle w hft hmode,
    RangeSet.computeGaps_covered hcan hfin hft hq h1 h2]
  simp [RangeSet.toPairs]

theorem claim_C1_witness :
    (0 : ℚ) < 1 ∧ cfgDedupe.alwaysFetchFresh = false ∧
    Canonical w0.st.requestedRanges ∧ AllFin w0.st.requestedRanges ∧
    (fetchEvents cfgDedupe okOracle w0 0 1).1.calls
      = w0.calls ++ RangeSet.toPairs (computeGaps w0.st.requestedRanges 0 1) :=
  ⟨by norm_num, rfl, by decide, by decide,
    (claim_C1 cfgDedupe okOracle w0 (by norm_num) rfl (by decide) (by decide)).1⟩

/-- C2 counterexample: with the `RangeSet` implementation this repository
ships (which does define `inverse` and `intersection`), a deduping
`fetchEvents` over an empty coverage set resolves successfully, invokes the
injected fetch capability once, and commits the fetched range — it does not
reject. -/
theorem claim_C2_counterexample :
    (fetchEvents cfgDedupe okOracle w0 0 1).2 = Except.ok [] ∧
    (fetchEvents cfgDedupe okOracle w0 0 1).1.calls = [(fin 0, fin 1)] ∧
    (fetchEvents cfgDedupe okOracle w0 0 1).1.st.requestedRanges
      = [fin 0, fin 1] := by
  decide

/-- C2 (amended): the gap computation
`requestedRanges.inverse().intersection(new RangeSet([range]))` is well
defined; on a fetcher whose coverage set is empty, a deduping
`fetchEvents(from, to)` with `from < to` invokes the injected fetch capability
exactly once, for exactly `[from, to]`. -/
theorem claim_C2_amended {D T : Type} (cfg : FetcherConfig D T) (oracle : Oracle D)
    (w : World D T) {frm til : ℚ} (hft : frm < til)
    (hmode : cfg.alwaysFetchFresh = false) (hempty : w.st.requestedRanges = []) :
    (fetchEvents cfg oracle w frm til).1.calls = w.calls ++ [(fin frm, fin til)] := by
  rw [fetchEvents_dedupe_calls cfg oracle w hft hmode, hempty,
    RangeSet.computeGaps_nil hft]
  rfl

theorem claim_C2_amended_witness :
    (0 : ℚ) < 1 ∧ w0.st.requestedRanges = [] ∧
    (fetchEvents cfgDedupe okOracle w0 0 1).1.calls
      = w0.calls ++ [(fin 0, fin 1)] :=
  ⟨by norm_num, rfl, claim_C2_amended cfgDedupe okOracle w0 (by norm_num) rfl rfl⟩

/-- C3: for every canonical finite coverage set, `intersection` with the set's
own `inverse` is empty, `inverse` is an involution, and `inverse` covers
exactly the points of the real line (with its infinity sentinels) that are not
interior to the set. -/
theorem claim_C3 {l : List JNum} (hc : Canonical l) (hf : AllFin l) :
    RangeSet.intersection l (RangeSet.inverse l) = [] ∧
    RangeSet.inverse (RangeSet.inverse l) = l ∧
    (∀ x : JNum, MemC x (RangeSet.inverse l) ↔ ¬ MemI x l) :=
  ⟨RangeSet.intersection_inverse_self hc hf, RangeSet.inverse_inverse hf,
    fun x => RangeSet.memC_inverse hc hf x⟩

theorem claim_C3_witness :
    Canonical [fin 1, fin 5] ∧ AllFin [fin 1, fin 5] ∧
    RangeSet.intersection [fin 1, fin 5] (RangeSet.inverse [fin 1, fin 5]) = [] :=
  ⟨by decide, by decide, (claim_C3 (by decide) (by decide)).1⟩

/-- C4: when every remote call fails, deduping `fetchEvents` leaves the
fetcher state exactly as before (the optimistic coverage claims are rolled
back, the collection and the pending registry untouched), rejects with the
first failing response attached, and a subsequent identical `fetchEvents`
issues the same remote calls again instead of returning a stale result. -/
theorem claim_C4 {D T : Type} (cfg : FetcherConfig D T) (oracle : Oracle D)
    (hfail : ∀ n r, (oracle n r).ok = false) (w : World D T) {frm til : ℚ}
    (hft : frm < til) (hmode : cfg.alwaysFetchFresh = false)
    (hcan : Canonical w.st.requestedRanges) (hfin : AllFin w.st.requestedRanges) :
    (fetchEvents cfg oracle w frm til).1.st = w.st ∧
    (∀ p G', RangeSet.toPairs (computeGaps w.st.requestedRanges frm til) = p :: G' →
      (fetchEvents cfg oracle w frm til).2
        = Except.error (FetchErr.fetchFailed (oracle w.calls.length p))) ∧
    (fetchEvents cfg oracle (fetchEvents cfg oracle w frm til).1 frm til).1.calls
      = (fetchEvents cfg oracle w frm til).1.calls
        ++ RangeSet.toPairs (computeGaps w.st.requestedRanges frm til) := by
  obtain ⟨h1, h2, h3⟩ := fetchEvents_allfail cfg oracle hfail w hft hmode hcan hfin
  refine ⟨h1, h3, ?_⟩
  rw [fetchEvents_dedupe_calls cfg oracle _ hft hmode, h1]

theorem claim_C4_witness :
    (failOracle 0 (fin 0, fin 1)).ok = false ∧ (0 : ℚ) < 1 ∧
    (fetchEvents cfgDedupe failOracle w0 0 1).1.st = w0.st :=
  ⟨rfl, by norm_num,
    (claim_C4 cfgDedupe failOracle (fun _ _ => rfl) w0 (by norm_num) rfl
      (by decide) (by decide)).1⟩

/-- C5 counterexample: in always-fetch-fresh mode a successful `fetchEvents`
does change the committed coverage set — `#requestEvents` optimistically adds
the fetched range there in every mode. -/
theorem claim_C5_counterexample :
    w0.st.requestedRanges = [] ∧
    (fetchEvents cfgFresh okOracle w0 0 1).1.st.requestedRanges
      = [fin 0, fin 1] := by
  decide

/-- C5 (amended): when `alwaysFetchFresh` is true, every
`fetchEvents(from, to)` with `from < to` performs exactly one remote call for
exactly `[from, to]`; on success it merges the returned items, resolves with
the full accumulated collection, and commits `[from, to]` into the coverage
set (the coverage set is *not* left unchanged). -/
theorem claim_C5_amended {D T : Type} (cfg : FetcherConfig D T) (oracle : Oracle D)
    (w : World D T) {frm til : ℚ} (hft : frm < til)
    (hmode : cfg.alwaysFetchFresh = true) :
    (fetchEvents cfg oracle w frm til).1.calls = w.calls ++ [(fin frm, fin til)] ∧
    ((oracle w.calls.length (fin frm, fin til)).ok = true →
      (fetchEvents cfg oracle w frm til).1.st.requestedRanges
          = RangeSet.addRangeAux w.st.requestedRanges (fin frm, fin til) ∧
      (fetchEvents cfg oracle w frm til).2
          = Except.ok ((fetchEvents cfg oracle w frm til).1.st.allEvents.map Prod.snd) ∧
      (fetchEvents cfg oracle w frm til).1.st.allEvents
          = (oracle w.calls.length (fin frm, fin til)).items.foldl
              (fun m e => mapSet m e.id (cfg.transform e)) w.st.allEvents) := by
  constructor
  · rw [fetchEvents_fresh_split cfg oracle w hft hmode]
    rcases hR : requestEvents cfg oracle w (fin frm, fin til) with ⟨w1, o⟩
    have hc : w1.calls = w.calls ++ [(fin frm, fin til)] := by
      rw [← requestEvents_calls cfg oracle w (fin frm, fin til), hR]
    cases o <;> simpa using hc
  · intro hok
    rw [fetchEvents_fresh_split cfg oracle w hft hmode,
      requestEvents_ok cfg oracle w _ hok]
    exact ⟨rfl, rfl, rfl⟩

theorem claim_C5_amended_witness :
    (0 : ℚ) < 1 ∧ cfgFresh.alwaysFetchFresh = true ∧
    (fetchEvents cfgFresh okOracle w0 0 1).1.calls
      = w0.calls ++ [(fin 0, fin 1)] :=
  ⟨by norm_num, rfl, (claim_C5_amended cfgFresh okOracle w0 (by norm_num) rfl).1⟩

/-- C6: the canonical-form invariant (strictly increasing flat boundary list,
even length) holds for every set built by the constructor and is preserved by
every `addRange` and `removeRange` the validity check lets through. -/
theorem claim_C6 :
    (∀ {rs : List (JNum × JNum)} {l : List JNum},
      RangeSet.ofRanges rs = .ok l → Canonical l) ∧
    (∀ {l l' : List JNum} {r : JNum × JNum}, Canonical l →
      RangeSet.addRange l r = .ok l' → Canonical l') ∧
    (∀ {l l' : List JNum} {r : JNum × JNum}, Canonical l →
      RangeSet.removeRange l r = .ok l' → Canonical l') :=
  ⟨fun h => RangeSet.ofRanges_canonical h,
    fun hc h => RangeSet.addRange_canonical hc h,
    fun hc h => RangeSet.removeRange_canonical hc h⟩

theorem claim_C6_witness :
    RangeSet.ofRanges [(fin 1, fin 3), (fin 4, fin 9)] = .ok [fin 1, fin 3, fin 4, fin 9]
      ∧ Canonical [fin 1, fin 3, fin 4, fin 9] := by
  have h : RangeSet.ofRanges [(fin 1, fin 3), (fin 4, fin 9)]
      = .ok [fin 1, fin 3, fin 4, fin 9] := by decide
  exact ⟨h, claim_C6.1 h⟩

/-- C7: on a canonical set, `hasRange` accepts a valid query `[start, end]`
and answers true exactly when a single stored interval contains it. -/
theorem claim_C7 {l : List JNum} (hc : Canonical l) {a b : JNum} (hab : a < b) :
    RangeSet.hasRange l (a, b) = .ok (RangeSet.hasRangeAux l (a, b)) ∧
    (RangeSet.hasRangeAux l (a, b) = true ↔
      ∃ p ∈ RangeSet.toPairs l, p.1 ≤ a ∧ b ≤ p.2) := by
  constructor
  · unfold RangeSet.hasRange
    rw [if_pos (by simpa [RangeSet.isValidRange] using hab)]
  · exact RangeSet.hasRangeAux_iff hc hab

theorem claim_C7_witness :
    Canonical [fin 1, fin 5] ∧ fin 2 < fin 4 ∧
    RangeSet.hasRange [fin 1, fin 5] (fin 2, fin 4)
      = .ok (RangeSet.hasRangeAux [fin 1, fin 5] (fin 2, fin 4)) :=
  ⟨by decide, by decide, (claim_C7 (by decide) (by decide)).1⟩

/-- C8: `fetchEvents` called with `from ≥ to` throws synchronously before any
state mutation or network call (the world, including the call log, is
untouched), and `addRange`, `removeRange` and `hasRange` reject every interval
with `start ≥ end` — equality included — without touching the list. -/
theorem claim_C8 {D T : Type} (cfg : FetcherConfig D T) (oracle : Oracle D)
    (w : World D T) {frm til : ℚ} (h : til ≤ frm) {r : JNum × JNum}
    (hr : r.2 ≤ r.1) :
    fetchEvents cfg oracle w frm til = (w, .error .invalidRange) ∧
    (∀ l : List JNum, RangeSet.addRange l r = .error "Invalid Range") ∧
    (∀ l : List JNum, RangeSet.removeRange l r = .error "Invalid Range") ∧
    (∀ l : List JNum, RangeSet.hasRange l r = .error "Invalid Range") := by
  have hv : RangeSet.isValidRange r = false := by
    simp only [RangeSet.isValidRange, decide_eq_false_iff_not]
    exact not_lt_of_le hr
  refine ⟨?_, ?_, ?_, ?_⟩
  · unfold fetchEvents
    rw [if_pos h]
  · intro l
    unfold RangeSet.addRange
    rw [if_neg (by simp [hv])]
  · intro l
    unfold RangeSet.removeRange
    rw [if_neg (by simp [hv])]
  · intro l
    unfold RangeSet.hasRange
    rw [if_neg (by simp [hv])]

theorem claim_C8_witness :
    (1 : ℚ) ≤ 1 ∧ fin 2 ≤ fin 2 ∧
    fetchEvents cfgDedupe okOracle w0 1 1 = (w0, .error .invalidRange) :=
  ⟨le_refl _, le_refl _,
    (claim_C8 cfgDedupe okOracle w0 (le_refl _) (r := (fin 2, fin 2))
      (le_refl _)).1⟩

/-- C9: for a valid range disjoint from every stored interval (touching at a
boundary point allowed), `addRange` then `removeRange` of the same range
restores exactly the previous canonical list. -/
theorem claim_C9 {l : List JNum} (hc : Canonical l) {a b : JNum} (hab : a < b)
    (hd : ∀ p ∈ RangeSet.toPairs l, p.2 ≤ a ∨ b ≤ p.1) :
    RangeSet.addRange l (a, b) = .ok (RangeSet.addRangeAux l (a, b)) ∧
    RangeSet.removeRange (RangeSet.addRangeAux l (a, b)) (a, b) = .ok l := by
  have hv : RangeSet.isValidRange (a, b) = true := by
    simpa [RangeSet.isValidRange] using hab
  constructor
  · unfold RangeSet.addRange
    rw [if_pos hv]
  · unfold RangeSet.removeRange
    rw [if_pos hv, RangeSet.addRemove_id hc hab hd]

theorem claim_C9_witness :
    Canonical [fin 1, fin 3] ∧ fin 3 < fin 5 ∧
    RangeSet.removeRange (RangeSet.addRangeAux [fin 1, fin 3] (fin 3, fin 5))
      (fin 3, fin 5) = .ok [fin 1, fin 3] :=
  ⟨by decide, by decide, (claim_C9 (by decide) (by decide) (by decide)).2⟩

/-- C10: the merge keyed on the remote item identifier is
insertion-order-preserving with last-write-wins values: overwriting an
existing key keeps the key sequence (hence the position) unchanged, a fresh
key is appended, the entry found for the merged key is the new value, other
keys' entries are untouched, re-merging a key is idempotent on the key
sequence, and a successful `#requestEvents` merges exactly this way into
`allEvents`. -/
theorem claim_C10 {D T : Type} (m : List (String × T)) (k : String) (v v' : T)
    (cfg : FetcherConfig D T) (oracle : Oracle D) (w : World D T)
    (r : JNum × JNum) (hok : (oracle w.calls.length r).ok = true) :
    ((mapSet m k v).map Prod.fst =
      (if m.any (fun p => p.1 = k) then m.map Prod.fst
        else m.map Prod.fst ++ [k])) ∧
    (mapSet m k v).find? (fun p => p.1 = k) = some (k, v) ∧
    (∀ k', k' ≠ k →
      (mapSet m k v).find? (fun p => p.1 = k') = m.find? (fun p => p.1 = k')) ∧
    (mapSet (mapSet m k v) k v').map Prod.fst = (mapSet m k v).map Prod.fst ∧
    (requestEvents cfg oracle w r).1.st.allEvents
      = (oracle w.calls.length r).items.foldl
          (fun mm e => mapSet mm e.id (cfg.transform e)) w.st.allEvents := by
  refine ⟨mapSet_keys m k v, mapSet_find m k v,
    fun k' h => mapSet_find_other m h v, mapSet_idem_keys m k v v', ?_⟩
  rw [requestEvents_ok cfg oracle w r hok]

theorem claim_C10_witness :
    (okOracle 0 (fin 0, fin 1)).ok = true ∧
    (mapSet [("a", 1)] "a" 2).find? (fun p => p.1 = "a") = some ("a", 2) :=
  ⟨rfl, (claim_C10 [("a", 1)] "a" 2 3 cfgDedupe okOracle w0 (fin 0, fin 1)
    rfl).2.1⟩
